import Mathlib

/-!
Verification of the statistical data-binning / density-estimation /
categorical-aggregation pipeline of the ECS163-HW3 repository.

The JavaScript sources are shallowly embedded over `ℚ` (all the numeric
data handled by the charts are finite IEEE doubles arising from small
integer CSV fields; the arithmetic the claims are about is exact at these
magnitudes).  Each definition is translated from the function it names in
the source files:

* `kernelDensityEstimator`, `kernelEpanechnikov`, `drawRidge` —
  ridgeline/KDE code (`createRidgelinePlot`);
* `countsByType`, `sortedCountsArray`, `secondaryTypesOf` —
  `stackedBarChart.js`;
* `sankeyNodes`, `sankeyNodeMap`, `sankeyMatrix`, `sankeyLinks` —
  `displaySankey` in `Homework2/ashih/main.js`;
* `d3ticks`, `histogramBins` — `displayHistogram` in the same file,
  following the `d3.histogram` / `d3.ticks` implementations of d3-array
  that the page loads.
-/

/-! ### Kernel density estimation (ridgeline plot) -/

/-- `d3.mean(V, f)`: d3 ignores non-numeric entries; over an all-numeric
rational sample it is the sum of `f` over `V` divided by `|V|`.
(d3 returns `undefined` on an empty sample; the theorems below therefore
carry a non-emptiness hypothesis.) -/
def d3mean (V : List ℚ) (f : ℚ → ℚ) : ℚ :=
  (V.map f).sum / V.length

/-- `kernelDensityEstimator(kernel, X)` from `createRidgelinePlot`:
`V => X.map(x => [x, d3.mean(V, v => kernel(x - v))])`. -/
def kernelDensityEstimator (kernel : ℚ → ℚ) (X : List ℚ) (V : List ℚ) :
    List (ℚ × ℚ) :=
  X.map fun x => (x, d3mean V (fun v => kernel (x - v)))

/-- `kernelEpanechnikov(k)` from `createRidgelinePlot`:
`v => Math.abs(v /= k) <= 1 ? 0.75 * (1 - v * v) / k : 0`
(the reassignment `v /= k` means the squared term is `(v/k)^2`). -/
def kernelEpanechnikov (k : ℚ) : ℚ → ℚ := fun v =>
  if |v / k| ≤ 1 then 0.75 * (1 - (v / k) * (v / k)) / k else 0

/-- The raw (bandwidth-free) Epanechnikov kernel the spec's KDE formula is
phrased with: `k(u) = 0.75 * (1 - u^2)` for `|u| <= 1`, else `0`. -/
def epanechnikovRaw (u : ℚ) : ℚ :=
  if |u| ≤ 1 then 0.75 * (1 - u * u) else 0

/-- Error kinds named by the spec (section 7).  The embedding includes this
failure channel so that the spec's required "failure result" behaviour is
expressible; whether the code ever produces it is what claim C2 asks. -/
inductive DensityError
  | insufficientSamples
  | invalidDomain
deriving DecidableEq

/-- Observable outcome of processing one generation's ridge. -/
inductive RidgeOutcome
  | failure (e : DensityError)
  | skipped
  | drawn (density : List (ℚ × ℚ))
deriving DecidableEq

/-- `true` exactly on the failure-result outcomes. -/
def RidgeOutcome.isFailure : RidgeOutcome → Bool
  | RidgeOutcome.failure _ => true
  | _ => false

/-- The per-generation `.each` body of `createRidgelinePlot`, acting on the
already-numeric totals of one generation: fewer than 2 values hits
`console.warn(...); return` (no path is drawn, nothing is thrown); otherwise
the KDE runs, and a ridge is drawn unless `d3.max` of the densities is
undefined (empty list) or not positive, which again warns and returns.
Over `ℚ` the source's `isNaN` filters keep every point. -/
def drawRidge (kde : List ℚ → List (ℚ × ℚ)) (totals : List ℚ) : RidgeOutcome :=
  if totals.length < 2 then RidgeOutcome.skipped
  else
    let density := kde totals
    match (density.map Prod.snd).max? with
    | none => RidgeOutcome.skipped
    | some m => if m ≤ 0 then RidgeOutcome.skipped else RidgeOutcome.drawn density

/-- C1: with a positive bandwidth `h` baked into the kernel argument the way
`kernelEpanechnikov` does it, the estimator returns exactly `X.map`, i.e. one
density point per query point in query order, whose density at `x` is the mean
over the sample of `K((x - v)/h) / h`; and `kernelEpanechnikov h` is exactly
the bandwidth-scaling of the raw Epanechnikov kernel. -/
theorem estimateDensity_spec (K : ℚ → ℚ) (h : ℚ) (hpos : 0 < h)
    (X V : List ℚ) (hV : V ≠ []) :
    kernelDensityEstimator (fun v => K (v / h) / h) X V
      = X.map (fun x =>
          (x, (V.map (fun v => K ((x - v) / h) / h)).sum / V.length))
    ∧ kernelEpanechnikov h = fun v => epanechnikovRaw (v / h) / h := by
  constructor
  · rfl
  · funext v
    simp only [kernelEpanechnikov, epanechnikovRaw]
    by_cases hc : |v / h| ≤ 1
    · rw [if_pos hc, if_pos hc]
    · rw [if_neg hc, if_neg hc, zero_div]

/-- Witness for C1 at bandwidth 2, query points `[0, 1]`, sample `[3]`. -/
theorem estimateDensity_spec_witness :
    kernelDensityEstimator (fun v => epanechnikovRaw (v / 2) / 2) [0, 1] [3]
      = ([0, 1] : List ℚ).map (fun x =>
          (x, (([3] : List ℚ).map
                (fun v => epanechnikovRaw ((x - v) / 2) / 2)).sum
              / ([3] : List ℚ).length))
    ∧ kernelEpanechnikov 2 = fun v => epanechnikovRaw (v / 2) / 2 :=
  estimateDensity_spec epanechnikovRaw 2 (by norm_num) [0, 1] [3] (by decide)

/-- C2 counterexample: a one-value sample is skipped with a console warning —
the ridgeline code surfaces no failure result at all. -/
theorem ridge_short_sample_no_failure :
    drawRidge (kernelDensityEstimator (kernelEpanechnikov 20) [300, 400]) [310]
      = RidgeOutcome.skipped
    ∧ (drawRidge (kernelDensityEstimator (kernelEpanechnikov 20) [300, 400])
        [310]).isFailure = false :=
  ⟨rfl, rfl⟩

/-- C2 amended: a sample of fewer than 2 values makes the ridgeline code skip
that generation (warn and return, drawing nothing); no `InsufficientSamples`
failure is surfaced and the outer call continues. -/
theorem ridge_short_sample_skipped (kde : List ℚ → List (ℚ × ℚ))
    (totals : List ℚ) (h : totals.length < 2) :
    drawRidge kde totals = RidgeOutcome.skipped := by
  unfold drawRidge
  rw [if_pos h]

/-- Witness for the amended C2 at the one-value sample `[310]`. -/
theorem ridge_short_sample_skipped_witness :
    drawRidge (kernelDensityEstimator (kernelEpanechnikov 20) [300, 400]) [310]
      = RidgeOutcome.skipped :=
  ridge_short_sample_skipped _ [310] (by decide)

/-! ### JS `Array.prototype.sort` — a kernel-computable stable sort

`Array.prototype.sort` with a consistent comparator is specified to produce
the stable ordering of the array; insertion sort below produces exactly that
ordering and, unlike `List.mergeSort`, evaluates inside `decide`. -/

/-- Insert `a` in front of the first element `b` of `l` with `le a b`. -/
def insertLe {α : Type} (le : α → α → Bool) (a : α) : List α → List α
  | [] => [a]
  | b :: l => if le a b then a :: b :: l else b :: insertLe le a l

/-- Stable insertion sort with a Boolean "comes-no-later" relation. -/
def jsSort {α : Type} (le : α → α → Bool) : List α → List α
  | [] => []
  | a :: l => insertLe le a (jsSort le l)

theorem perm_insertLe {α : Type} (le : α → α → Bool) (a : α) :
    ∀ l : List α, List.Perm (insertLe le a l) (a :: l)
  | [] => List.Perm.refl _
  | b :: l => by
    unfold insertLe
    by_cases h : le a b = true
    · rw [if_pos h]
    · rw [if_neg h]
      exact ((perm_insertLe le a l).cons b).trans (List.Perm.swap a b l)

theorem perm_jsSort {α : Type} (le : α → α → Bool) :
    ∀ l : List α, List.Perm (jsSort le l) l
  | [] => List.Perm.refl _
  | a :: l => (perm_insertLe le a (jsSort le l)).trans ((perm_jsSort le l).cons a)

theorem mem_jsSort {α : Type} {le : α → α → Bool} {x : α} {l : List α} :
    x ∈ jsSort le l ↔ x ∈ l :=
  (perm_jsSort le l).mem_iff

theorem pairwise_insertLe {α : Type} {le : α → α → Bool}
    (htr : ∀ a b c, le a b = true → le b c = true → le a c = true)
    (hto : ∀ a b, le a b = true ∨ le b a = true)
    (a : α) {l : List α} (h : l.Pairwise (fun x y => le x y = true)) :
    (insertLe le a l).Pairwise (fun x y => le x y = true) := by
  induction l with
  | nil => simpa [insertLe] using List.pairwise_singleton _ a
  | cons b l ih =>
    rw [List.pairwise_cons] at h
    unfold insertLe
    by_cases hab : le a b = true
    · rw [if_pos hab]
      refine List.Pairwise.cons ?_ (List.Pairwise.cons h.1 h.2)
      intro z hz
      rcases List.mem_cons.mp hz with rfl | hz'
      · exact hab
      · exact htr a b z hab (h.1 z hz')
    · rw [if_neg hab]
      refine List.Pairwise.cons ?_ (ih h.2)
      intro z hz
      have hz' : z ∈ a :: l := (perm_insertLe le a l).mem_iff.mp hz
      rcases List.mem_cons.mp hz' with rfl | hz''
      · rcases hto b z with hbz | hzb
        · exact hbz
        · exact absurd hzb hab
      · exact h.1 z hz''

theorem pairwise_jsSort {α : Type} {le : α → α → Bool}
    (htr : ∀ a b c, le a b = true → le b c = true → le a c = true)
    (hto : ∀ a b, le a b = true ∨ le b a = true) :
    ∀ l : List α, (jsSort le l).Pairwise (fun x y => le x y = true)
  | [] => List.Pairwise.nil
  | a :: l => pairwise_insertLe htr hto a (pairwise_jsSort htr hto l)

theorem sublist_insertLe {α : Type} (le : α → α → Bool) (a : α) :
    ∀ l : List α, l.Sublist (insertLe le a l)
  | [] => List.nil_sublist _
  | b :: l => by
    unfold insertLe
    by_cases h : le a b = true
    · rw [if_pos h]
      exact List.sublist_cons_self a (b :: l)
    · rw [if_neg h]
      exact (sublist_insertLe le a l).cons₂ b

theorem pair_sublist_insertLe {α : Type} {le : α → α → Bool} {a b : α}
    (hab : le a b = true) :
    ∀ {l : List α}, b ∈ l → [a, b].Sublist (insertLe le a l) := by
  intro l
  induction l with
  | nil => intro h; exact absurd h (List.not_mem_nil b)
  | cons c l ih =>
    intro hb
    unfold insertLe
    by_cases hac : le a c = true
    · rw [if_pos hac]
      exact (List.singleton_sublist.mpr hb).cons₂ a
    · rw [if_neg hac]
      rcases List.mem_cons.mp hb with rfl | hb'
      · exact absurd hab hac
      · exact (ih hb').cons c

/-- Stability of `jsSort`: a pair already in comes-no-later order keeps its
relative order — in particular elements the comparator ties stay in input
order. -/
theorem pair_sublist_jsSort {α : Type} {le : α → α → Bool} {a b : α}
    (hab : le a b = true) :
    ∀ {l : List α}, [a, b].Sublist l → [a, b].Sublist (jsSort le l) := by
  intro l
  induction l with
  | nil => intro h; exact absurd h (by simp)
  | cons c l ih =>
    intro h
    show [a, b].Sublist (insertLe le c (jsSort le l))
    cases h with
    | cons _ h' => exact (ih h').trans (sublist_insertLe le c _)
    | cons₂ _ h' =>
      exact pair_sublist_insertLe hab (mem_jsSort.mpr (List.singleton_sublist.mp h'))

/-! ### Categorical aggregation: `createStackedBarChart` -/

/-- A record as `createStackedBarChart` reads it: primary type `Type_1`,
secondary type `Type_2`. -/
structure PokeRec where
  Type_1 : String
  Type_2 : String
deriving DecidableEq

/-- Helper for `firstSeen`: drop values already seen. -/
def firstSeenAux : List String → List String → List String
  | _, [] => []
  | seen, a :: l =>
    if a ∈ seen then firstSeenAux seen l
    else a :: firstSeenAux (a :: seen) l

/-- `[...new Set(l)]` / `Array.from(new Set(l))`: the distinct values of `l`
in first-seen order. -/
def firstSeen (l : List String) : List String := firstSeenAux [] l

theorem mem_firstSeenAux (x : String) :
    ∀ (l seen : List String), x ∈ firstSeenAux seen l ↔ x ∈ l ∧ x ∉ seen := by
  intro l
  induction l with
  | nil => intro seen; simp [firstSeenAux]
  | cons a l ih =>
    intro seen
    unfold firstSeenAux
    by_cases h : a ∈ seen
    · rw [if_pos h, ih]
      simp only [List.mem_cons]
      constructor
      · exact fun hx => ⟨Or.inr hx.1, hx.2⟩
      · rintro ⟨rfl | hx, hns⟩
        · exact absurd h hns
        · exact ⟨hx, hns⟩
    · rw [if_neg h, List.mem_cons, ih]
      simp only [List.mem_cons]
      constructor
      · rintro (rfl | ⟨hx, hns⟩)
        · exact ⟨Or.inl rfl, h⟩
        · exact ⟨Or.inr hx, fun hc => hns (Or.inr hc)⟩
      · rintro ⟨rfl | hx, hns⟩
        · exact Or.inl rfl
        · by_cases hxa : x = a
          · exact Or.inl hxa
          · exact Or.inr ⟨hx, fun hc => hc.elim hxa hns⟩

theorem mem_firstSeen {x : String} {l : List String} :
    x ∈ firstSeen l ↔ x ∈ l := by
  rw [firstSeen, mem_firstSeenAux]
  simp

theorem nodup_firstSeenAux :
    ∀ (l seen : List String), (firstSeenAux seen l).Nodup := by
  intro l
  induction l with
  | nil => intro seen; simp [firstSeenAux]
  | cons a l ih =>
    intro seen
    unfold firstSeenAux
    by_cases h : a ∈ seen
    · rw [if_pos h]; exact ih seen
    · rw [if_neg h]
      refine List.Nodup.cons ?_ (ih (a :: seen))
      intro hc
      exact ((mem_firstSeenAux a l (a :: seen)).mp hc).2 (List.mem_cons_self a seen)

theorem nodup_firstSeen (l : List String) : (firstSeen l).Nodup :=
  nodup_firstSeenAux l []

/-- Non-strict code-point comparison of character lists (written out because
`String.lt` is defined by well-founded recursion and does not reduce in the
kernel). -/
def charListLe : List Char → List Char → Bool
  | [], _ => true
  | _ :: _, [] => false
  | a :: as, b :: bs =>
    if a.toNat < b.toNat then true
    else if b.toNat < a.toNat then false
    else charListLe as bs

/-- Strict code-point comparison of character lists. -/
def charListLt : List Char → List Char → Bool
  | [], [] => false
  | [], _ :: _ => true
  | _ :: _, [] => false
  | a :: as, b :: bs =>
    if a.toNat < b.toNat then true
    else if b.toNat < a.toNat then false
    else charListLt as bs

/-- The sort comparator of `secondaryTypes`:
`(a, b) => a === "None" ? -1 : b === "None" ? 1 : a.localeCompare(b)`,
read as the "comes-no-later" relation (comparator value <= 0).
`localeCompare` is modelled as code-point order; none of the claims below
depends on the relative order of two non-`"None"` names. -/
def noneFirstLe (a b : String) : Bool :=
  if a = "None" then true else if b = "None" then false
  else charListLe a.data b.data

/-- `[...new Set(data.map(d => d.Type_2))].sort(noneFirst)` from
`createStackedBarChart`: the resolved secondary domain. -/
def secondaryTypesOf (data : List PokeRec) : List String :=
  jsSort noneFirstLe (firstSeen (data.map PokeRec.Type_2))

theorem mem_secondaryTypesOf {x : String} {data : List PokeRec} :
    x ∈ secondaryTypesOf data ↔ x ∈ data.map PokeRec.Type_2 := by
  rw [secondaryTypesOf, mem_jsSort, mem_firstSeen]

theorem nodup_secondaryTypesOf (data : List PokeRec) :
    (secondaryTypesOf data).Nodup :=
  ((perm_jsSort noneFirstLe _).nodup_iff).mpr (nodup_firstSeen _)

/-- JS object-key assignment `obj[k] = v`: overwrite the entry if the key is
an own property, else append it. -/
def jsSet (l : List (String × ℤ)) (k : String) (v : ℤ) : List (String × ℤ) :=
  if k ∈ l.map Prod.fst then l.map (fun p => if p.1 = k then (k, v) else p)
  else l ++ [(k, v)]

/-- `counts[key]++` guarded by `counts[key] !== undefined` in the rollup
reducer: bump the entry where present; where absent the code only logs a
warning and counts nothing. -/
def bumpKey (l : List (String × ℤ)) (k : String) : List (String × ℤ) :=
  l.map (fun p => if p.1 = k then (p.1, p.2 + 1) else p)

/-- The `d3.rollup` reducer of `createStackedBarChart`: zero-initialise one
entry per secondary type, bump the entry of each leaf's `Type_2`, then run
`counts.total = leaves.length` — an ordinary object-key write, which collides
with any secondary type literally named `"total"`. -/
def countsFor (secTypes : List String) (leaves : List PokeRec) :
    List (String × ℤ) :=
  jsSet
    (leaves.foldl (fun acc leaf => bumpKey acc leaf.Type_2)
      (secTypes.map (fun s => (s, (0 : ℤ)))))
    "total" leaves.length

/-- One entry of the rollup output, flattened the way
`{ primaryType, ...counts }` flattens it: the `"total"` entry lives in the
same key namespace as the secondary-type counts. -/
structure CategoryGroup where
  primaryType : String
  counts : List (String × ℤ)
deriving DecidableEq

/-- First entry of `l` with key `k` (the alists built below have unique
keys, so this is JS property lookup). -/
def getKey : List (String × ℤ) → String → Option ℤ
  | [], _ => none
  | p :: l, k => if p.1 = k then some p.2 else getKey l k

/-- Property read `obj[k]` on the counts object (0 stands for the absent
case, which the claims never exercise on their own). -/
def subCount (g : CategoryGroup) (k : String) : ℤ :=
  (getKey g.counts k).getD 0

/-- The group's `total` field. -/
def groupTotal (g : CategoryGroup) : ℤ :=
  (getKey g.counts "total").getD 0

/-- The spec's `sum(subCounts.values())`: the group's counts summed over the
resolved secondary domain. -/
def subCountsSum (secTypes : List String) (g : CategoryGroup) : ℤ :=
  (secTypes.map (subCount g)).sum

/-- `d3.rollup(data, reducer, d => d.Type_1)`: one group per distinct
primary type in first-seen order, each reducing the records with that
primary type in data order. -/
def countsByType (data : List PokeRec) : List CategoryGroup :=
  (firstSeen (data.map PokeRec.Type_1)).map fun k =>
    ⟨k, countsFor (secondaryTypesOf data)
        (data.filter (fun r => r.Type_1 = k))⟩

/-- `.sort(([,a],[,b]) => b.total - a.total)`: stable sort by descending
total. -/
def sortedCountsArray (data : List PokeRec) : List CategoryGroup :=
  jsSort (fun a b => decide (groupTotal b ≤ groupTotal a)) (countsByType data)

/-! ### Association-list lemmas for the rollup reducer -/

theorem getKey_bumpKey (l : List (String × ℤ)) (k k' : String) :
    getKey (bumpKey l k') k
      = (getKey l k).map (fun v => if k = k' then v + 1 else v) := by
  induction l with
  | nil => rfl
  | cons p l ih =>
    simp only [bumpKey, List.map_cons] at ih ⊢
    by_cases h1 : p.1 = k'
    · rw [if_pos h1]
      by_cases h2 : p.1 = k
      · have hkk : k = k' := h2 ▸ h1
        simp [getKey, h2, hkk]
      · simp [getKey, h2, ih]
    · rw [if_neg h1]
      by_cases h2 : p.1 = k
      · have hkk : ¬(k = k') := fun hc => h1 (h2.trans hc)
        simp [getKey, h2, hkk]
      · simp [getKey, h2, ih]

theorem keys_bumpKey (l : List (String × ℤ)) (k : String) :
    (bumpKey l k).map Prod.fst = l.map Prod.fst := by
  induction l with
  | nil => rfl
  | cons p l ih =>
    simp only [bumpKey, List.map_cons] at ih ⊢
    by_cases h : p.1 = k
    · rw [if_pos h]; simp [ih, h]
    · rw [if_neg h]; simp [ih]

theorem getKey_foldl_bump (k : String) :
    ∀ (leaves : List PokeRec) (acc : List (String × ℤ)),
      getKey (leaves.foldl (fun a lf => bumpKey a lf.Type_2) acc) k
        = (getKey acc k).map
            (fun v => v + ((leaves.filter (fun lf => lf.Type_2 = k)).length : ℤ)) := by
  intro leaves
  induction leaves with
  | nil =>
    intro acc
    cases hacc : getKey acc k <;> simp [hacc]
  | cons lf leaves ih =>
    intro acc
    rw [List.foldl_cons, ih, getKey_bumpKey]
    cases hacc : getKey acc k with
    | none => simp
    | some v =>
      by_cases h : lf.Type_2 = k
      · simp only [Option.map_some']
        rw [if_pos h.symm]
        have hflt : List.filter (fun x => decide (x.Type_2 = k)) (lf :: leaves)
            = lf :: List.filter (fun x => decide (x.Type_2 = k)) leaves := by
          simp [List.filter_cons, h]
        rw [hflt]
        simp only [List.length_cons, Option.some.injEq]
        push_cast
        ring
      · have h' : ¬(k = lf.Type_2) := fun hc => h hc.symm
        simp [h, h', List.filter_cons]

theorem keys_foldl_bump :
    ∀ (leaves : List PokeRec) (acc : List (String × ℤ)),
      (leaves.foldl (fun a lf => bumpKey a lf.Type_2) acc).map Prod.fst
        = acc.map Prod.fst
  | [], _ => rfl
  | lf :: leaves, acc => by
    rw [List.foldl_cons, keys_foldl_bump leaves _, keys_bumpKey]

theorem getKey_zero_init (dom : List String) (k : String) (h : k ∈ dom) :
    getKey (dom.map (fun s => (s, (0 : ℤ)))) k = some 0 := by
  induction dom with
  | nil => cases h
  | cons a dom ih =>
    simp only [List.map_cons, getKey]
    by_cases hak : a = k
    · rw [if_pos hak]
    · rw [if_neg hak]
      exact ih ((List.mem_cons.mp h).resolve_left fun hc => hak hc.symm)

theorem keys_zero_init (dom : List String) :
    ((dom.map (fun s => (s, (0 : ℤ)))).map Prod.fst) = dom := by
  induction dom with
  | nil => rfl
  | cons a dom ih => simp [ih]

theorem getKey_append_left {l₁ : List (String × ℤ)} (l₂ : List (String × ℤ))
    {k : String} (h : k ∈ l₁.map Prod.fst) :
    getKey (l₁ ++ l₂) k = getKey l₁ k := by
  induction l₁ with
  | nil => simp at h
  | cons p l ih =>
    simp only [List.cons_append, getKey]
    by_cases hp : p.1 = k
    · rw [if_pos hp, if_pos hp]
    · rw [if_neg hp, if_neg hp]
      refine ih ?_
      simp only [List.map_cons, List.mem_cons] at h
      exact h.resolve_left fun hc => hp hc.symm

theorem getKey_append_self (l : List (String × ℤ)) (k : String) (v : ℤ)
    (h : k ∉ l.map Prod.fst) :
    getKey (l ++ [(k, v)]) k = some v := by
  induction l with
  | nil => simp [getKey]
  | cons p l ih =>
    simp only [List.map_cons, List.mem_cons] at h
    push_neg at h
    simp only [List.cons_append, getKey]
    rw [if_neg (show ¬(p.1 = k) from fun hc => h.1 hc.symm)]
    exact ih h.2

theorem getKey_overwrite (l : List (String × ℤ)) (k : String) (v : ℤ)
    (h : k ∈ l.map Prod.fst) :
    getKey (l.map (fun p => if p.1 = k then (k, v) else p)) k = some v := by
  induction l with
  | nil => simp at h
  | cons p l ih =>
    simp only [List.map_cons]
    by_cases hp : p.1 = k
    · rw [if_pos hp]
      simp [getKey]
    · rw [if_neg hp]
      simp only [getKey, if_neg hp]
      refine ih ?_
      simp only [List.map_cons, List.mem_cons] at h
      exact h.resolve_left fun hc => hp hc.symm

theorem getKey_jsSet_self (l : List (String × ℤ)) (k : String) (v : ℤ) :
    getKey (jsSet l k v) k = some v := by
  unfold jsSet
  by_cases h : k ∈ l.map Prod.fst
  · rw [if_pos h]; exact getKey_overwrite l k v h
  · rw [if_neg h]; exact getKey_append_self l k v h

theorem jsSet_of_not_mem {l : List (String × ℤ)} {k : String} (v : ℤ)
    (h : k ∉ l.map Prod.fst) : jsSet l k v = l ++ [(k, v)] :=
  if_neg h

/-! ### Rollup-level lemmas -/

/-- `total` is the number of leaves of the group — unconditionally, because
the final `counts.total = leaves.length` write wins even when it collides
with a secondary type named `"total"`. -/
theorem groupTotal_countsFor (p : String) (secTypes : List String)
    (leaves : List PokeRec) :
    groupTotal ⟨p, countsFor secTypes leaves⟩ = (leaves.length : ℤ) := by
  unfold groupTotal countsFor
  rw [getKey_jsSet_self]
  rfl

theorem keys_countsFor (secTypes : List String) (leaves : List PokeRec)
    (hnot : "total" ∉ secTypes) :
    (countsFor secTypes leaves).map Prod.fst = secTypes ++ ["total"] := by
  unfold countsFor
  have hkeys : ((leaves.foldl (fun acc leaf => bumpKey acc leaf.Type_2)
      (secTypes.map (fun s => (s, (0 : ℤ))))).map Prod.fst) = secTypes := by
    rw [keys_foldl_bump, keys_zero_init]
  rw [jsSet_of_not_mem _ (fun hc => hnot (hkeys ▸ hc)), List.map_append, hkeys]
  rfl

/-- Per-key correctness of the reducer when `"total"` is not a secondary
type: the entry at `k` counts exactly the group's leaves with `Type_2 = k`
(zero when no such leaf exists). -/
theorem subCount_countsFor (p : String) (secTypes : List String)
    (leaves : List PokeRec) {k : String} (hk : k ∈ secTypes)
    (hnot : "total" ∉ secTypes) :
    subCount ⟨p, countsFor secTypes leaves⟩ k
      = ((leaves.filter (fun lf => lf.Type_2 = k)).length : ℤ) := by
  unfold subCount countsFor
  have hkeys : ((leaves.foldl (fun acc leaf => bumpKey acc leaf.Type_2)
      (secTypes.map (fun s => (s, (0 : ℤ))))).map Prod.fst) = secTypes := by
    rw [keys_foldl_bump, keys_zero_init]
  rw [jsSet_of_not_mem _ (fun hc => hnot (hkeys ▸ hc))]
  rw [getKey_append_left _ (hkeys.symm ▸ hk)]
  rw [getKey_foldl_bump, getKey_zero_init _ _ hk]
  simp

/-- Partition of a list's length by the fibers of a key function over a
duplicate-free covering key list. -/
theorem sum_fiber_lengths {α β : Type} [DecidableEq β] (f : α → β) :
    ∀ (keys : List β) (data : List α), keys.Nodup →
      (∀ r ∈ data, f r ∈ keys) →
      (keys.map (fun k => (data.filter (fun r => f r = k)).length)).sum
        = data.length := by
  intro keys
  induction keys with
  | nil =>
    intro data _ hcov
    have hnil : data = [] :=
      List.eq_nil_iff_forall_not_mem.mpr fun a ha =>
        absurd (hcov a ha) (List.not_mem_nil _)
    subst hnil
    rfl
  | cons k keys ih =>
    intro data hnd hcov
    simp only [List.map_cons, List.sum_cons]
    have hnd' := List.nodup_cons.mp hnd
    have hrest : ∀ j ∈ keys,
        (data.filter (fun r => f r = j)).length
          = (((data.filter (fun r => !(decide (f r = k)))).filter
              (fun r => f r = j)).length) := by
      intro j hj
      have hjk : j ≠ k := fun hc => hnd'.1 (hc ▸ hj)
      rw [List.filter_filter]
      refine congrArg List.length (List.filter_congr ?_).symm
      intro a _
      by_cases hfa : f a = j
      · have : ¬(f a = k) := fun hc => hjk ((hfa.symm.trans hc))
        simp [hfa, this, hjk]
      · simp [hfa]
    rw [List.map_congr_left hrest, ih (data.filter (fun r => !(decide (f r = k))))
      hnd'.2 ?_]
    · have h1 : data.length
          = (data.filter (fun r => decide (f r = k))).length
            + (data.filter (fun r => !(decide (f r = k)))).length :=
        List.length_eq_length_filter_add _
      omega
    · intro r hr
      have hr' := List.mem_filter.mp hr
      have : f r ∈ k :: keys := hcov r hr'.1
      rcases List.mem_cons.mp this with hc | hc
      · rw [hc] at hr'
        simp at hr'
      · exact hc

/-! ### Claims C5, C6, C7 -/

/-- C5 counterexample: with a record whose secondary type is literally
`"total"`, the `counts.total = leaves.length` write overwrites that
sub-count, and the group total no longer equals the sum of the sub-counts
over the resolved domain. -/
theorem groupAndCount_total_cex :
    ¬ ∀ g ∈ sortedCountsArray [⟨"A", "total"⟩, ⟨"A", "X"⟩],
        groupTotal g
          = subCountsSum (secondaryTypesOf [⟨"A", "total"⟩, ⟨"A", "X"⟩]) g := by
  decide

/-- C5 amended: provided no record's secondary type is the reserved key
`"total"`, every group's total equals the sum of its sub-counts over the
resolved secondary domain, and the totals over all groups sum to the number
of records (the unknown-category branch never drops a record, because the
domain is derived from the data itself). -/
theorem groupAndCount_totals (data : List PokeRec)
    (h : ∀ r ∈ data, r.Type_2 ≠ "total") :
    (∀ g ∈ sortedCountsArray data,
        groupTotal g = subCountsSum (secondaryTypesOf data) g)
    ∧ ((sortedCountsArray data).map groupTotal).sum = (data.length : ℤ) := by
  have hnot : "total" ∉ secondaryTypesOf data := by
    intro hc
    rcases List.mem_map.mp (mem_secondaryTypesOf.mp hc) with ⟨r, hr, hre⟩
    exact h r hr hre
  constructor
  · intro g hg
    rcases List.mem_map.mp (mem_jsSort.mp hg) with ⟨k, hk, rfl⟩
    rw [groupTotal_countsFor]
    unfold subCountsSum
    rw [List.map_congr_left (fun j hj => subCount_countsFor _ _ _ hj hnot)]
    have hcov : ∀ lf ∈ data.filter (fun r => r.Type_1 = k),
        lf.Type_2 ∈ secondaryTypesOf data := by
      intro lf hlf
      exact mem_secondaryTypesOf.mpr
        (List.mem_map.mpr ⟨lf, (List.mem_filter.mp hlf).1, rfl⟩)
    have hfib := sum_fiber_lengths PokeRec.Type_2 (secondaryTypesOf data)
      (data.filter (fun r => r.Type_1 = k)) (nodup_secondaryTypesOf data) hcov
    rw [← hfib, Nat.cast_list_sum, List.map_map]
    rfl
  · have hperm : List.Perm (List.map groupTotal (sortedCountsArray data))
        (List.map groupTotal (countsByType data)) :=
      (perm_jsSort _ _).map groupTotal
    rw [hperm.sum_eq, countsByType, List.map_map]
    rw [show groupTotal ∘ (fun k => (⟨k, countsFor (secondaryTypesOf data)
          (data.filter (fun r => r.Type_1 = k))⟩ : CategoryGroup))
        = fun k => ((data.filter (fun r => r.Type_1 = k)).length : ℤ) from
      funext fun k => groupTotal_countsFor _ _ _]
    have hcov : ∀ r ∈ data, r.Type_1 ∈ firstSeen (data.map PokeRec.Type_1) :=
      fun r hr => mem_firstSeen.mpr (List.mem_map.mpr ⟨r, hr, rfl⟩)
    have hfib := sum_fiber_lengths PokeRec.Type_1
      (firstSeen (data.map PokeRec.Type_1)) data (nodup_firstSeen _) hcov
    rw [← hfib, Nat.cast_list_sum, List.map_map]
    rfl

/-- Witness for the amended C5 at the spec's own example data, instantiated
at the "Fire" group. -/
theorem groupAndCount_totals_witness :
    groupTotal ⟨"Fire", [("None", 1), ("Flying", 1), ("total", 2)]⟩
      = subCountsSum
          (secondaryTypesOf
            [⟨"Fire", "None"⟩, ⟨"Fire", "Flying"⟩, ⟨"Water", "None"⟩])
          ⟨"Fire", [("None", 1), ("Flying", 1), ("total", 2)]⟩
    ∧ ((sortedCountsArray
        [⟨"Fire", "None"⟩, ⟨"Fire", "Flying"⟩, ⟨"Water", "None"⟩]).map
          groupTotal).sum
      = (([⟨"Fire", "None"⟩, ⟨"Fire", "Flying"⟩, ⟨"Water", "None"⟩]
          : List PokeRec).length : ℤ) :=
  ⟨(groupAndCount_totals
      [⟨"Fire", "None"⟩, ⟨"Fire", "Flying"⟩, ⟨"Water", "None"⟩]
      (by decide)).1 _ (by decide),
   (groupAndCount_totals
      [⟨"Fire", "None"⟩, ⟨"Fire", "Flying"⟩, ⟨"Water", "None"⟩]
      (by decide)).2⟩

/-- C6 counterexample: with a record whose secondary type is literally
`"total"`, a group that never observes that type still carries a nonzero
entry for it (overwritten by its leaf count), so unobserved combinations are
not explicit zero entries. -/
theorem groupAndCount_zero_fill_cex :
    ¬ ∀ g ∈ sortedCountsArray [⟨"A", "total"⟩, ⟨"B", "X"⟩],
        ∀ k ∈ secondaryTypesOf [⟨"A", "total"⟩, ⟨"B", "X"⟩],
          (∀ r ∈ ([⟨"A", "total"⟩, ⟨"B", "X"⟩] : List PokeRec),
              r.Type_1 = g.primaryType → r.Type_2 ≠ k) →
          subCount g k = 0 := by
  decide

/-- C6 amended: provided no record's secondary type is the reserved key
`"total"`, every group's counts object carries exactly the resolved
secondary domain plus the one bookkeeping `"total"` entry — the same key
sequence for every group — and the entry at each domain key counts exactly
that group's records with that secondary type (an explicit zero when the
combination is unobserved). -/
theorem groupAndCount_domain (data : List PokeRec)
    (h : ∀ r ∈ data, r.Type_2 ≠ "total") :
    ∀ g ∈ sortedCountsArray data,
      g.counts.map Prod.fst = secondaryTypesOf data ++ ["total"]
      ∧ ∀ k ∈ secondaryTypesOf data,
          subCount g k
            = (((data.filter (fun r => r.Type_1 = g.primaryType)).filter
                (fun lf => lf.Type_2 = k)).length : ℤ) := by
  have hnot : "total" ∉ secondaryTypesOf data := by
    intro hc
    rcases List.mem_map.mp (mem_secondaryTypesOf.mp hc) with ⟨r, hr, hre⟩
    exact h r hr hre
  intro g hg
  rcases List.mem_map.mp (mem_jsSort.mp hg) with ⟨k0, hk0, rfl⟩
  exact ⟨keys_countsFor _ _ hnot, fun k hk => subCount_countsFor _ _ _ hk hnot⟩

/-- Witness for the amended C6 at the spec's own example data, instantiated
at the "Water" group and the unobserved key "Flying" (an explicit zero). -/
theorem groupAndCount_domain_witness :
    (⟨"Water", [("None", 1), ("Flying", 0), ("total", 1)]⟩
        : CategoryGroup).counts.map Prod.fst
      = secondaryTypesOf
          [⟨"Fire", "None"⟩, ⟨"Fire", "Flying"⟩, ⟨"Water", "None"⟩]
        ++ ["total"]
    ∧ subCount ⟨"Water", [("None", 1), ("Flying", 0), ("total", 1)]⟩ "Flying"
      = (((([⟨"Fire", "None"⟩, ⟨"Fire", "Flying"⟩, ⟨"Water", "None"⟩]
            : List PokeRec).filter
            (fun r => r.Type_1
              = (⟨"Water", [("None", 1), ("Flying", 0), ("total", 1)]⟩
                  : CategoryGroup).primaryType)).filter
          (fun lf => lf.Type_2 = "Flying")).length : ℤ) :=
  ⟨(groupAndCount_domain
      [⟨"Fire", "None"⟩, ⟨"Fire", "Flying"⟩, ⟨"Water", "None"⟩]
      (by decide) _ (by decide)).1,
   (groupAndCount_domain
      [⟨"Fire", "None"⟩, ⟨"Fire", "Flying"⟩, ⟨"Water", "None"⟩]
      (by decide) _ (by decide)).2 "Flying" (by decide)⟩

/-- The ordering C7 specifies: strictly greater total first, ties in
ascending lexicographic order of the primary key. -/
def specOrderedByTotalThenKey (l : List CategoryGroup) : Prop :=
  l.Pairwise (fun a b => groupTotal b < groupTotal a
    ∨ (groupTotal a = groupTotal b
        ∧ charListLt a.primaryType.data b.primaryType.data = true))

/-- C7 counterexample: two tied groups come out in first-seen order
(`"B"` before `"A"`), not in ascending key order — the sort comparator is
`b.total - a.total` alone, with no tie-break. -/
theorem sorted_groups_tiebreak_cex :
    ¬ specOrderedByTotalThenKey
        (sortedCountsArray [⟨"B", "x"⟩, ⟨"A", "x"⟩]) := by
  unfold specOrderedByTotalThenKey
  decide

/-- C7 amended: the groups are sorted by descending total; the sort is the
stable ordering of the rollup output, so groups with equal totals keep their
first-seen relative order (not ascending key order); output is a
permutation of the rollup groups and deterministic in the input. -/
theorem sortedCountsArray_ordering (data : List PokeRec) :
    (sortedCountsArray data).Pairwise
      (fun a b => groupTotal b ≤ groupTotal a)
    ∧ List.Perm (sortedCountsArray data) (countsByType data)
    ∧ ∀ a b : CategoryGroup, [a, b].Sublist (countsByType data) →
        groupTotal a = groupTotal b →
        [a, b].Sublist (sortedCountsArray data) := by
  refine ⟨?_, perm_jsSort _ _, ?_⟩
  · refine (pairwise_jsSort ?_ ?_ (countsByType data)).imp
      (fun hab => of_decide_eq_true hab)
    · intro a b c hab hbc
      exact decide_eq_true
        (le_trans (of_decide_eq_true hbc) (of_decide_eq_true hab))
    · intro a b
      rcases le_total (groupTotal b) (groupTotal a) with hle | hle
      · exact Or.inl (decide_eq_true hle)
      · exact Or.inr (decide_eq_true hle)
  · intro a b hsub he
    exact pair_sublist_jsSort (decide_eq_true (le_of_eq he.symm)) hsub

/-- Witness for the amended C7: two tied groups stay in first-seen order. -/
theorem sortedCountsArray_ordering_witness :
    [⟨"B", [("x", 1), ("y", 0), ("total", 1)]⟩,
     ⟨"A", [("x", 0), ("y", 1), ("total", 1)]⟩].Sublist
      (sortedCountsArray [⟨"B", "x"⟩, ⟨"A", "y"⟩]) :=
  (sortedCountsArray_ordering [⟨"B", "x"⟩, ⟨"A", "y"⟩]).2.2
    ⟨"B", [("x", 1), ("y", 0), ("total", 1)]⟩
    ⟨"A", [("x", 0), ("y", 1), ("total", 1)]⟩ (by decide) (by decide)

/-! ### Flow counting: `displaySankey` -/

/-- One row of the Sankey input, as `displayDashboard` prepares it:
salary bin → experience level → work type. -/
structure FlowRec where
  salaryBin : String
  experienceLevel : String
  workType : String
deriving DecidableEq

/-- `Array.from(new Set(data.map(({salaryBin}) => salaryBin)))`. -/
def salaryBinsOf (data : List FlowRec) : List String :=
  firstSeen (data.map FlowRec.salaryBin)

/-- `Array.from(new Set(data.map(({experienceLevel}) => experienceLevel)))`. -/
def experienceLevelsOf (data : List FlowRec) : List String :=
  firstSeen (data.map FlowRec.experienceLevel)

/-- `Array.from(new Set(data.map(({workType}) => workType)))`. -/
def workTypesOf (data : List FlowRec) : List String :=
  firstSeen (data.map FlowRec.workType)

/-- `[...salaryBins, ...experienceLevel, ...workType]`: the node id list. -/
def sankeyNodes (data : List FlowRec) : List String :=
  salaryBinsOf data ++ experienceLevelsOf data ++ workTypesOf data

/-- Index of the last occurrence of `v` in `l`.
`Object.fromEntries(nodes.map(({id}, index) => [id, index]))` keeps the last
entry per key, so `nodeMap[v]` is exactly this. -/
def lastIdx : List String → String → Option ℕ
  | [], _ => none
  | a :: l, v =>
    match lastIdx l v with
    | some i => some (i + 1)
    | none => if a = v then some 0 else none

/-- `nodeMap[v]` as a total function (every value looked up by the code is a
node, so the default is never exercised). -/
def nodeIdx (data : List FlowRec) (v : String) : ℕ :=
  (lastIdx (sankeyNodes data) v).getD 0

/-- One `+= 1` on a matrix cell. -/
def bumpCell (M : ℕ → ℕ → ℕ) (i j : ℕ) : ℕ → ℕ → ℕ :=
  fun a b => if a = i ∧ b = j then M a b + 1 else M a b

/-- `linkMatrix` after the `data.forEach` loop: starting from all zeroes,
each record increments `[nodeMap[salaryBin]][nodeMap[experienceLevel]]` and
`[nodeMap[experienceLevel]][nodeMap[workType]]`. -/
def sankeyMatrix (data : List FlowRec) : ℕ → ℕ → ℕ :=
  data.foldl
    (fun M r =>
      bumpCell
        (bumpCell M (nodeIdx data r.salaryBin) (nodeIdx data r.experienceLevel))
        (nodeIdx data r.experienceLevel) (nodeIdx data r.workType))
    (fun _ _ => 0)

/-- A Sankey link `{source, target, value}` (indices into the node list). -/
structure FlowEdge where
  source : ℕ
  target : ℕ
  value : ℕ
deriving DecidableEq

/-- The double loop pushing `{source: i, target: j, value: linkMatrix[i][j]}`
for every matrix cell with positive count, in row-major order. -/
def linksOf (M : ℕ → ℕ → ℕ) (n : ℕ) : List FlowEdge :=
  (List.range n).flatMap fun i =>
    (List.range n).filterMap fun j =>
      if 0 < M i j then some ⟨i, j, M i j⟩ else none

/-- The `links` array built by `displaySankey`. -/
def sankeyLinks (data : List FlowRec) : List FlowEdge :=
  linksOf (sankeyMatrix data) (sankeyNodes data).length

/-! #### `lastIdx` characterisation -/

theorem lastIdx_eq_none {v : String} :
    ∀ {l : List String}, lastIdx l v = none ↔ v ∉ l := by
  intro l
  induction l with
  | nil => simp [lastIdx]
  | cons a l ih =>
    simp only [lastIdx]
    cases hli : lastIdx l v with
    | some i =>
      simp only [List.mem_cons]
      constructor
      · intro hc; cases hc
      · intro hc
        exact absurd (ih.mpr fun hm => hc (Or.inr hm)) (by simp [hli])
    | none =>
      by_cases hav : a = v
      · simp [hav, ih.mp hli]
      · have hva : ¬v = a := fun hc => hav hc.symm
        simp [hav, hva, List.mem_cons, ih.mp hli]

theorem lastIdx_lt_length {v : String} :
    ∀ {l : List String} {i : ℕ}, lastIdx l v = some i → i < l.length := by
  intro l
  induction l with
  | nil => intro i h; cases h
  | cons a l ih =>
    intro i h
    simp only [lastIdx] at h
    cases hli : lastIdx l v with
    | some j =>
      rw [hli] at h
      cases h
      exact Nat.succ_lt_succ (ih hli)
    | none =>
      rw [hli] at h
      by_cases hav : a = v
      · rw [if_pos hav] at h
        cases h
        exact Nat.succ_pos _
      · rw [if_neg hav] at h
        cases h

theorem lastIdx_get {v : String} :
    ∀ {l : List String} {i : ℕ}, lastIdx l v = some i → l.get? i = some v := by
  intro l
  induction l with
  | nil => intro i h; cases h
  | cons a l ih =>
    intro i h
    simp only [lastIdx] at h
    cases hli : lastIdx l v with
    | some j =>
      rw [hli] at h
      cases h
      exact ih hli
    | none =>
      rw [hli] at h
      by_cases hav : a = v
      · rw [if_pos hav] at h
        cases h
        simp [hav]
      · rw [if_neg hav] at h
        cases h

theorem lastIdx_append_of_mem (l₁ : List String) {l₂ : List String}
    {v : String} {i : ℕ} (h : lastIdx l₂ v = some i) :
    lastIdx (l₁ ++ l₂) v = some (l₁.length + i) := by
  induction l₁ with
  | nil => simpa using h
  | cons a l₁ ih =>
    show lastIdx (a :: (l₁ ++ l₂)) v = _
    simp only [lastIdx, ih]
    have harith : l₁.length + i + 1 = l₁.length + 1 + i := by omega
    simp [List.length_cons, harith]

theorem lastIdx_append_of_not_mem (l₁ : List String) {l₂ : List String}
    {v : String} (h : v ∉ l₂) :
    lastIdx (l₁ ++ l₂) v = lastIdx l₁ v := by
  induction l₁ with
  | nil =>
    rw [List.nil_append, lastIdx_eq_none.mpr h]
    rfl
  | cons a l₁ ih =>
    show lastIdx (a :: (l₁ ++ l₂)) v = lastIdx (a :: l₁) v
    simp only [lastIdx, ih]

theorem lastIdx_isSome_of_mem {l : List String} {v : String} (h : v ∈ l) :
    ∃ i, lastIdx l v = some i := by
  cases hli : lastIdx l v with
  | none => exact absurd (lastIdx_eq_none.mp hli) (not_not_intro h)
  | some i => exact ⟨i, rfl⟩

theorem lastIdx_inj {l : List String} {v w : String} {i : ℕ}
    (hv : lastIdx l v = some i) (hw : lastIdx l w = some i) : v = w :=
  Option.some.inj ((lastIdx_get hv).symm.trans (lastIdx_get hw))

/-- Number of stage-1 (salary-bin) nodes. -/
def stage1Len (data : List FlowRec) : ℕ := (salaryBinsOf data).length

/-- Number of stage-2 (experience-level) nodes. -/
def stage2Len (data : List FlowRec) : ℕ := (experienceLevelsOf data).length

/-- Number of stage-3 (work-type) nodes. -/
def stage3Len (data : List FlowRec) : ℕ := (workTypesOf data).length

/-- A stage-1 value that appears in no later stage resolves to its index
inside the stage-1 block. -/
theorem nodeIdx_stage1 {data : List FlowRec} {v : String}
    (h1 : v ∈ salaryBinsOf data)
    (h2 : v ∉ experienceLevelsOf data) (h3 : v ∉ workTypesOf data) :
    lastIdx (sankeyNodes data) v = some (nodeIdx data v)
    ∧ nodeIdx data v < stage1Len data := by
  obtain ⟨i, hi⟩ := lastIdx_isSome_of_mem h1
  have heq : lastIdx (sankeyNodes data) v = some i := by
    unfold sankeyNodes
    rw [lastIdx_append_of_not_mem _ h3, lastIdx_append_of_not_mem _ h2, hi]
  refine ⟨?_, ?_⟩
  · rw [heq]; unfold nodeIdx; rw [heq]; rfl
  · unfold nodeIdx
    rw [heq]
    exact lastIdx_lt_length hi

/-- A stage-2 value that does not appear in stage 3 resolves to the stage-2
block (regardless of any collision with stage 1: the later entry wins). -/
theorem nodeIdx_stage2 {data : List FlowRec} {v : String}
    (h2 : v ∈ experienceLevelsOf data) (h3 : v ∉ workTypesOf data) :
    lastIdx (sankeyNodes data) v = some (nodeIdx data v)
    ∧ stage1Len data ≤ nodeIdx data v
    ∧ nodeIdx data v < stage1Len data + stage2Len data := by
  obtain ⟨i, hi⟩ := lastIdx_isSome_of_mem h2
  have heq : lastIdx (sankeyNodes data) v = some (stage1Len data + i) := by
    unfold sankeyNodes
    rw [lastIdx_append_of_not_mem _ h3, lastIdx_append_of_mem _ hi]
    rfl
  have hlen : i < stage2Len data := lastIdx_lt_length hi
  refine ⟨?_, ?_, ?_⟩
  · rw [heq]; unfold nodeIdx; rw [heq]; rfl
  · unfold nodeIdx; rw [heq]; exact Nat.le_add_right _ _
  · unfold nodeIdx; rw [heq]
    simpa using Nat.add_lt_add_left hlen (stage1Len data)

/-- A stage-3 value always resolves to the stage-3 block (the last block
wins every collision). -/
theorem nodeIdx_stage3 {data : List FlowRec} {v : String}
    (h3 : v ∈ workTypesOf data) :
    lastIdx (sankeyNodes data) v = some (nodeIdx data v)
    ∧ stage1Len data + stage2Len data ≤ nodeIdx data v
    ∧ nodeIdx data v < stage1Len data + stage2Len data + stage3Len data := by
  obtain ⟨i, hi⟩ := lastIdx_isSome_of_mem h3
  have heq : lastIdx (sankeyNodes data) v
      = some (stage1Len data + stage2Len data + i) := by
    unfold sankeyNodes
    rw [lastIdx_append_of_mem _ hi, List.length_append]
    rfl
  have hlen : i < stage3Len data := lastIdx_lt_length hi
  refine ⟨?_, ?_, ?_⟩
  · rw [heq]; unfold nodeIdx; rw [heq]; rfl
  · unfold nodeIdx; rw [heq]; exact Nat.le_add_right _ _
  · unfold nodeIdx; rw [heq]
    simpa using Nat.add_lt_add_left hlen (stage1Len data + stage2Len data)

/-! #### Matrix cell sums -/

/-- Sum of matrix entries over the cells of `range n × range n` selected by
`P`. -/
def cellSum (M : ℕ → ℕ → ℕ) (n : ℕ) (P : ℕ → ℕ → Bool) : ℕ :=
  ∑ i in Finset.range n, ∑ j in Finset.range n, if P i j then M i j else 0

theorem listSum_range (n : ℕ) (f : ℕ → ℕ) :
    ((List.range n).map f).sum = ∑ i in Finset.range n, f i := by
  induction n with
  | zero => simp
  | succ n ih =>
    rw [List.range_succ, List.map_append, List.sum_append,
      Finset.sum_range_succ, ih]
    simp

theorem cellSum_bumpCell (M : ℕ → ℕ → ℕ) (n : ℕ) (P : ℕ → ℕ → Bool)
    {a b : ℕ} (ha : a < n) (hb : b < n) :
    cellSum (bumpCell M a b) n P
      = cellSum M n P + (if P a b then 1 else 0) := by
  unfold cellSum
  have hsplit : ∀ i j, (if P i j then bumpCell M a b i j else 0)
      = (if P i j then M i j else 0)
        + (if i = a ∧ j = b ∧ P a b = true then 1 else 0) := by
    intro i j
    unfold bumpCell
    by_cases h1 : i = a ∧ j = b
    · rcases h1 with ⟨rfl, rfl⟩
      by_cases h2 : P i j = true <;> simp [h2]
    · rw [if_neg h1]
      have hn : ¬(i = a ∧ j = b ∧ P a b = true) := fun hc => h1 ⟨hc.1, hc.2.1⟩
      rw [if_neg hn, add_zero]
  rw [Finset.sum_congr rfl fun i _ => Finset.sum_congr rfl fun j _ => hsplit i j]
  simp only [Finset.sum_add_distrib]
  congr 1
  by_cases hP : P a b = true
  · simp only [hP, and_true, if_pos]
    have hinner : ∀ i : ℕ,
        (∑ j in Finset.range n, if i = a ∧ j = b then 1 else 0)
          = if i = a then 1 else 0 := by
      intro i
      by_cases hia : i = a
      · simp only [hia, true_and]
        rw [Finset.sum_ite_eq' (Finset.range n) b (fun _ => 1)]
        simp [hb]
      · simp [hia]
    rw [Finset.sum_congr rfl fun i _ => hinner i]
    rw [Finset.sum_ite_eq' (Finset.range n) a (fun _ => 1)]
    simp [ha]
  · simp [hP]

theorem cellSum_fold (n : ℕ) (P : ℕ → ℕ → Bool) (f g h : FlowRec → ℕ) :
    ∀ (rs : List FlowRec) (M : ℕ → ℕ → ℕ),
      (∀ r ∈ rs, f r < n ∧ g r < n ∧ h r < n) →
      cellSum
        (rs.foldl (fun M r => bumpCell (bumpCell M (f r) (g r)) (g r) (h r)) M)
        n P
        = cellSum M n P
          + (rs.map (fun r => (if P (f r) (g r) then 1 else 0)
              + (if P (g r) (h r) then 1 else 0))).sum := by
  intro rs
  induction rs with
  | nil => intro M _; simp
  | cons r rs ih =>
    intro M hb
    have hr := hb r (List.mem_cons_self r rs)
    rw [List.foldl_cons, ih _ (fun x hx => hb x (List.mem_cons_of_mem r hx)),
      cellSum_bumpCell _ n P hr.2.1 hr.2.2, cellSum_bumpCell _ n P hr.1 hr.2.1,
      List.map_cons, List.sum_cons]
    omega

theorem rowSum_eq (M : ℕ → ℕ → ℕ) (P : ℕ → ℕ → Bool) (i : ℕ) :
    ∀ js : List ℕ,
      (((js.filterMap fun j =>
            if 0 < M i j then some (⟨i, j, M i j⟩ : FlowEdge) else none).filter
          (fun e => P e.source e.target)).map FlowEdge.value).sum
        = (js.map fun j => if P i j then M i j else 0).sum := by
  intro js
  induction js with
  | nil => rfl
  | cons j js ih =>
    rw [List.filterMap_cons]
    by_cases h0 : 0 < M i j
    · rw [if_pos h0]
      by_cases hP : P i j = true
      · simp [List.filter_cons, hP, ih]
      · simp [List.filter_cons, hP, ih]
    · rw [if_neg h0]
      have hM : M i j = 0 := Nat.eq_zero_of_not_pos h0
      by_cases hP : P i j = true
      · simp [hP, hM, ih]
      · simp [hP, ih]

/-- The sum of the link values whose endpoints satisfy `P` is the matrix sum
over the `P`-cells: emitting only positive cells loses nothing. -/
theorem linksSum_eq_cellSum (M : ℕ → ℕ → ℕ) (n : ℕ) (P : ℕ → ℕ → Bool) :
    (((linksOf M n).filter (fun e => P e.source e.target)).map
        FlowEdge.value).sum
      = cellSum M n P := by
  have main : ∀ is : List ℕ,
      (((is.flatMap fun i =>
            (List.range n).filterMap fun j =>
              if 0 < M i j then some (⟨i, j, M i j⟩ : FlowEdge) else none).filter
          (fun e => P e.source e.target)).map FlowEdge.value).sum
        = (is.map fun i =>
            ((List.range n).map fun j => if P i j then M i j else 0).sum).sum := by
    intro is
    induction is with
    | nil => rfl
    | cons i is ih =>
      rw [List.flatMap_cons, List.filter_append, List.map_append,
        List.sum_append, ih, rowSum_eq, List.map_cons, List.sum_cons]
  rw [linksOf, main, cellSum]
  rw [listSum_range n (fun i => ((List.range n).map
    (fun j => if P i j then M i j else 0)).sum)]
  exact Finset.sum_congr rfl fun i _ =>
    listSum_range n (fun j => if P i j then M i j else 0)

/-- Every emitted link has a positive value, endpoints inside the node
range, and carries exactly its matrix cell. -/
theorem mem_linksOf {M : ℕ → ℕ → ℕ} {n : ℕ} {e : FlowEdge}
    (he : e ∈ linksOf M n) :
    0 < e.value ∧ e.source < n ∧ e.target < n
      ∧ e.value = M e.source e.target := by
  rcases List.mem_flatMap.mp he with ⟨i, hi, hrow⟩
  rcases List.mem_filterMap.mp hrow with ⟨j, hj, hcell⟩
  by_cases h0 : 0 < M i j
  · rw [if_pos h0] at hcell
    cases hcell
    exact ⟨h0, List.mem_range.mp hi, List.mem_range.mp hj, rfl⟩
  · rw [if_neg h0] at hcell
    cases hcell

theorem lastIdx_last {v : String} :
    ∀ {l : List String} {i : ℕ}, lastIdx l v = some i →
      ∀ j, i < j → l.get? j ≠ some v := by
  intro l
  induction l with
  | nil => intro i h; cases h
  | cons a l ih =>
    intro i h j hij
    simp only [lastIdx] at h
    cases hli : lastIdx l v with
    | some i' =>
      rw [hli] at h
      cases h
      cases j with
      | zero => omega
      | succ j' =>
        have hij' : i' < j' := Nat.lt_of_succ_lt_succ hij
        simpa using ih hli j' hij'
    | none =>
      rw [hli] at h
      by_cases hav : a = v
      · rw [if_pos hav] at h
        cases h
        cases j with
        | zero => omega
        | succ j' =>
          intro hc
          have hvl : v ∈ l := List.get?_mem (by simpa using hc)
          exact (lastIdx_eq_none.mp hli) hvl
      · rw [if_neg hav] at h
        cases h

theorem sum_map_one {α : Type} (l : List α) :
    (l.map fun _ => (1 : ℕ)).sum = l.length := by
  induction l with
  | nil => rfl
  | cons a l ih => simp [ih]; omega

theorem sum_map_indicator {α : Type} (p : α → Prop) [DecidablePred p]
    (l : List α) :
    (l.map fun a => if p a then (1 : ℕ) else 0).sum
      = (l.filter fun a => decide (p a)).length := by
  induction l with
  | nil => rfl
  | cons a l ih =>
    by_cases h : p a <;> simp [List.filter_cons, h, ih] <;> omega

/-! ### Claims C3, C4, C10 -/

/-- C3 counterexample: with the single record `("x", "x", "y")` the node
list does contain `"x"` twice (once per selector), but `nodeMap` resolves
`"x"` to its last index 1, so the record's stage-1 → stage-2 edge becomes
the self-loop `1 → 1`: the two occurrences are merged for edge purposes and
the stage-1 node (index 0) carries no edge at all. -/
theorem flow_node_identity_cex :
    sankeyNodes [⟨"x", "x", "y"⟩] = ["x", "x", "y"]
    ∧ sankeyLinks [⟨"x", "x", "y"⟩] = [⟨1, 1, 1⟩, ⟨1, 2, 1⟩]
    ∧ ¬ (∀ e ∈ sankeyLinks [⟨"x", "x", "y"⟩], e.source ≠ e.target)
    ∧ ¬ (∃ e ∈ sankeyLinks [⟨"x", "x", "y"⟩],
          e.source < stage1Len [⟨"x", "x", "y"⟩]) := by
  refine ⟨rfl, ?_, ?_, ?_⟩ <;> decide

/-- C3 amended: the node sequence is the concatenation of the per-selector
first-seen distinct values, but edge endpoints are resolved by value alone:
`nodeMap` keeps the **last** index of each value, so a value shared between
selectors has all its edges attached to its last occurrence. -/
theorem flow_nodes_lastWins (data : List FlowRec) :
    sankeyNodes data
      = firstSeen (data.map FlowRec.salaryBin)
        ++ firstSeen (data.map FlowRec.experienceLevel)
        ++ firstSeen (data.map FlowRec.workType)
    ∧ ∀ v i, lastIdx (sankeyNodes data) v = some i →
        (sankeyNodes data).get? i = some v
        ∧ ∀ j, i < j → (sankeyNodes data).get? j ≠ some v := by
  refine ⟨rfl, fun v i hvi => ⟨lastIdx_get hvi, lastIdx_last hvi⟩⟩

/-- Witness for the amended C3: `"x"` resolves to index 1 of
`["x", "x", "y"]`, its last occurrence. -/
theorem flow_nodes_lastWins_witness :
    (sankeyNodes [⟨"x", "x", "y"⟩]).get? 1 = some "x"
    ∧ (sankeyNodes [⟨"x", "x", "y"⟩]).get? 2 ≠ some "x" :=
  ⟨((flow_nodes_lastWins [⟨"x", "x", "y"⟩]).2 "x" 1 (by decide)).1,
   ((flow_nodes_lastWins [⟨"x", "x", "y"⟩]).2 "x" 1 (by decide)).2 2
     (by decide)⟩

/-- Sum of the weights of the links from the stage-1 block to the stage-2
block of the node list. -/
def pairFlowSum12 (data : List FlowRec) : ℕ :=
  (((sankeyLinks data).filter fun e =>
      decide (e.source < stage1Len data
        ∧ stage1Len data ≤ e.target
        ∧ e.target < stage1Len data + stage2Len data)).map FlowEdge.value).sum

/-- Sum of the weights of the links from the stage-2 block to the stage-3
block of the node list. -/
def pairFlowSum23 (data : List FlowRec) : ℕ :=
  (((sankeyLinks data).filter fun e =>
      decide (stage1Len data ≤ e.source
        ∧ e.source < stage1Len data + stage2Len data
        ∧ stage1Len data + stage2Len data ≤ e.target)).map FlowEdge.value).sum

/-- C4 counterexample: on the record `("x", "x", "y")` (the middle value
colliding with the first), no edge at all runs from the stage-1 block to the
stage-2 block, so the stage-1/stage-2 edge weights sum to 0, not to the
record count 1. -/
theorem flow_conservation_cex :
    ¬ (pairFlowSum12 [⟨"x", "x", "y"⟩]
        = ([⟨"x", "x", "y"⟩] : List FlowRec).length) := by
  decide

theorem sankeyNodes_length (data : List FlowRec) :
    (sankeyNodes data).length
      = stage1Len data + stage2Len data + stage3Len data := by
  simp only [sankeyNodes, stage1Len, stage2Len, stage3Len, List.length_append]

/-- C4 amended: provided no string value is shared between different stages,
the edge weights between each adjacent stage pair sum to the number of
records, and every emitted edge has a positive weight (the matrix
accumulates additively from zero and only positive cells become links). -/
theorem flow_conservation (data : List FlowRec)
    (h12 : ∀ v ∈ salaryBinsOf data, v ∉ experienceLevelsOf data)
    (h13 : ∀ v ∈ salaryBinsOf data, v ∉ workTypesOf data)
    (h23 : ∀ v ∈ experienceLevelsOf data, v ∉ workTypesOf data) :
    pairFlowSum12 data = data.length
    ∧ pairFlowSum23 data = data.length
    ∧ ∀ e ∈ sankeyLinks data, 0 < e.value := by
  have hplace : ∀ r ∈ data,
      nodeIdx data r.salaryBin < stage1Len data
      ∧ stage1Len data ≤ nodeIdx data r.experienceLevel
      ∧ nodeIdx data r.experienceLevel < stage1Len data + stage2Len data
      ∧ stage1Len data + stage2Len data ≤ nodeIdx data r.workType
      ∧ nodeIdx data r.workType
          < stage1Len data + stage2Len data + stage3Len data := by
    intro r hr
    have hm1 : r.salaryBin ∈ salaryBinsOf data :=
      mem_firstSeen.mpr (List.mem_map.mpr ⟨r, hr, rfl⟩)
    have hm2 : r.experienceLevel ∈ experienceLevelsOf data :=
      mem_firstSeen.mpr (List.mem_map.mpr ⟨r, hr, rfl⟩)
    have hm3 : r.workType ∈ workTypesOf data :=
      mem_firstSeen.mpr (List.mem_map.mpr ⟨r, hr, rfl⟩)
    exact ⟨(nodeIdx_stage1 hm1 (h12 _ hm1) (h13 _ hm1)).2,
      (nodeIdx_stage2 hm2 (h23 _ hm2)).2.1,
      (nodeIdx_stage2 hm2 (h23 _ hm2)).2.2,
      (nodeIdx_stage3 hm3).2.1, (nodeIdx_stage3 hm3).2.2⟩
  have hn := sankeyNodes_length data
  have hbounds : ∀ r ∈ data,
      nodeIdx data r.salaryBin < (sankeyNodes data).length
      ∧ nodeIdx data r.experienceLevel < (sankeyNodes data).length
      ∧ nodeIdx data r.workType < (sankeyNodes data).length := by
    intro r hr
    have h := hplace r hr
    omega
  refine ⟨?_, ?_, fun e he => (mem_linksOf he).1⟩
  · have h1 := linksSum_eq_cellSum (sankeyMatrix data) (sankeyNodes data).length
      (fun i j => decide (i < stage1Len data ∧ stage1Len data ≤ j
        ∧ j < stage1Len data + stage2Len data))
    have h2 := cellSum_fold (sankeyNodes data).length
      (fun i j => decide (i < stage1Len data ∧ stage1Len data ≤ j
        ∧ j < stage1Len data + stage2Len data))
      (fun r => nodeIdx data r.salaryBin)
      (fun r => nodeIdx data r.experienceLevel)
      (fun r => nodeIdx data r.workType) data (fun _ _ => 0) hbounds
    calc pairFlowSum12 data
        = cellSum (sankeyMatrix data) (sankeyNodes data).length
            (fun i j => decide (i < stage1Len data ∧ stage1Len data ≤ j
              ∧ j < stage1Len data + stage2Len data)) := h1
      _ = cellSum (fun _ _ => 0) (sankeyNodes data).length
            (fun i j => decide (i < stage1Len data ∧ stage1Len data ≤ j
              ∧ j < stage1Len data + stage2Len data))
          + (data.map fun r =>
              (if (decide (nodeIdx data r.salaryBin < stage1Len data
                  ∧ stage1Len data ≤ nodeIdx data r.experienceLevel
                  ∧ nodeIdx data r.experienceLevel
                      < stage1Len data + stage2Len data)) then 1 else 0)
              + (if (decide (nodeIdx data r.experienceLevel < stage1Len data
                  ∧ stage1Len data ≤ nodeIdx data r.workType
                  ∧ nodeIdx data r.workType
                      < stage1Len data + stage2Len data)) then 1 else 0)).sum :=
          h2
      _ = data.length := by
          have hzero : cellSum (fun _ _ => 0) (sankeyNodes data).length
              (fun i j => decide (i < stage1Len data ∧ stage1Len data ≤ j
                ∧ j < stage1Len data + stage2Len data)) = 0 := by
            simp [cellSum]
          rw [hzero, Nat.zero_add]
          rw [List.map_congr_left ?_, sum_map_one data]
          intro r hr
          have h := hplace r hr
          have hpos : (decide (nodeIdx data r.salaryBin < stage1Len data
              ∧ stage1Len data ≤ nodeIdx data r.experienceLevel
              ∧ nodeIdx data r.experienceLevel
                  < stage1Len data + stage2Len data)) = true := by
            simp only [decide_eq_true_eq]
            omega
          have hneg : (decide (nodeIdx data r.experienceLevel < stage1Len data
              ∧ stage1Len data ≤ nodeIdx data r.workType
              ∧ nodeIdx data r.workType
                  < stage1Len data + stage2Len data)) = false := by
            simp only [decide_eq_false_iff_not]
            omega
          simp [hpos, hneg]
  · have h1 := linksSum_eq_cellSum (sankeyMatrix data) (sankeyNodes data).length
      (fun i j => decide (stage1Len data ≤ i
        ∧ i < stage1Len data + stage2Len data
        ∧ stage1Len data + stage2Len data ≤ j))
    have h2 := cellSum_fold (sankeyNodes data).length
      (fun i j => decide (stage1Len data ≤ i
        ∧ i < stage1Len data + stage2Len data
        ∧ stage1Len data + stage2Len data ≤ j))
      (fun r => nodeIdx data r.salaryBin)
      (fun r => nodeIdx data r.experienceLevel)
      (fun r => nodeIdx data r.workType) data (fun _ _ => 0) hbounds
    calc pairFlowSum23 data
        = cellSum (sankeyMatrix data) (sankeyNodes data).length
            (fun i j => decide (stage1Len data ≤ i
              ∧ i < stage1Len data + stage2Len data
              ∧ stage1Len data + stage2Len data ≤ j)) := h1
      _ = cellSum (fun _ _ => 0) (sankeyNodes data).length
            (fun i j => decide (stage1Len data ≤ i
              ∧ i < stage1Len data + stage2Len data
              ∧ stage1Len data + stage2Len data ≤ j))
          + (data.map fun r =>
              (if (decide (stage1Len data ≤ nodeIdx data r.salaryBin
                  ∧ nodeIdx data r.salaryBin
                      < stage1Len data + stage2Len data
                  ∧ stage1Len data + stage2Len data
                      ≤ nodeIdx data r.experienceLevel)) then 1 else 0)
              + (if (decide (stage1Len data ≤ nodeIdx data r.experienceLevel
                  ∧ nodeIdx data r.experienceLevel
                      < stage1Len data + stage2Len data
                  ∧ stage1Len data + stage2Len data
                      ≤ nodeIdx data r.workType)) then 1 else 0)).sum := h2
      _ = data.length := by
          have hzero : cellSum (fun _ _ => 0) (sankeyNodes data).length
              (fun i j => decide (stage1Len data ≤ i
                ∧ i < stage1Len data + stage2Len data
                ∧ stage1Len data + stage2Len data ≤ j)) = 0 := by
            simp [cellSum]
          rw [hzero, Nat.zero_add]
          rw [List.map_congr_left ?_, sum_map_one data]
          intro r hr
          have h := hplace r hr
          have hneg : (decide (stage1Len data ≤ nodeIdx data r.salaryBin
              ∧ nodeIdx data r.salaryBin < stage1Len data + stage2Len data
              ∧ stage1Len data + stage2Len data
                  ≤ nodeIdx data r.experienceLevel)) = false := by
            simp only [decide_eq_false_iff_not]
            omega
          have hpos : (decide (stage1Len data ≤ nodeIdx data r.experienceLevel
              ∧ nodeIdx data r.experienceLevel
                  < stage1Len data + stage2Len data
              ∧ stage1Len data + stage2Len data
                  ≤ nodeIdx data r.workType)) = true := by
            simp only [decide_eq_true_eq]
            omega
          simp [hpos, hneg]

/-- Witness for the amended C4 at a three-record dataset with disjoint
stage values. -/
theorem flow_conservation_witness :
    pairFlowSum12 [⟨"50k", "MI", "remote"⟩, ⟨"100k", "MI", "hybrid"⟩,
        ⟨"50k", "SE", "remote"⟩]
      = ([⟨"50k", "MI", "remote"⟩, ⟨"100k", "MI", "hybrid"⟩,
          ⟨"50k", "SE", "remote"⟩] : List FlowRec).length
    ∧ pairFlowSum23 [⟨"50k", "MI", "remote"⟩, ⟨"100k", "MI", "hybrid"⟩,
        ⟨"50k", "SE", "remote"⟩]
      = ([⟨"50k", "MI", "remote"⟩, ⟨"100k", "MI", "hybrid"⟩,
          ⟨"50k", "SE", "remote"⟩] : List FlowRec).length
    ∧ 0 < (⟨0, 2, 1⟩ : FlowEdge).value :=
  ⟨(flow_conservation
      [⟨"50k", "MI", "remote"⟩, ⟨"100k", "MI", "hybrid"⟩,
        ⟨"50k", "SE", "remote"⟩]
      (by decide) (by decide) (by decide)).1,
   (flow_conservation
      [⟨"50k", "MI", "remote"⟩, ⟨"100k", "MI", "hybrid"⟩,
        ⟨"50k", "SE", "remote"⟩]
      (by decide) (by decide) (by decide)).2.1,
   (flow_conservation
      [⟨"50k", "MI", "remote"⟩, ⟨"100k", "MI", "hybrid"⟩,
        ⟨"50k", "SE", "remote"⟩]
      (by decide) (by decide) (by decide)).2.2 ⟨0, 2, 1⟩ (by decide)⟩

/-- Weights of the links entering node `nodeMap[m]` from stage-1 nodes. -/
def nodeInFlow (data : List FlowRec) (m : String) : ℕ :=
  (((sankeyLinks data).filter fun e =>
      decide (e.source < stage1Len data
        ∧ e.target = nodeIdx data m)).map FlowEdge.value).sum

/-- Weights of the links leaving node `nodeMap[m]` toward stage-3 nodes
(link targets never exceed the node count, so the lower bound selects
exactly the stage-3 block). -/
def nodeOutFlow (data : List FlowRec) (m : String) : ℕ :=
  (((sankeyLinks data).filter fun e =>
      decide (e.source = nodeIdx data m
        ∧ stage1Len data + stage2Len data ≤ e.target)).map FlowEdge.value).sum

/-- C10: with no value shared between stages, every middle-stage node is
flow-balanced: stage-1 inflow = stage-3 outflow = number of records whose
experience level is that node's value. -/
theorem flow_middle_balance (data : List FlowRec) (m : String)
    (hm : m ∈ experienceLevelsOf data)
    (h12 : ∀ v ∈ salaryBinsOf data, v ∉ experienceLevelsOf data)
    (h13 : ∀ v ∈ salaryBinsOf data, v ∉ workTypesOf data)
    (h23 : ∀ v ∈ experienceLevelsOf data, v ∉ workTypesOf data) :
    nodeInFlow data m
      = (data.filter fun r => r.experienceLevel = m).length
    ∧ nodeOutFlow data m
      = (data.filter fun r => r.experienceLevel = m).length := by
  have hmIdx := nodeIdx_stage2 hm (h23 m hm)
  have hplace : ∀ r ∈ data,
      nodeIdx data r.salaryBin < stage1Len data
      ∧ stage1Len data ≤ nodeIdx data r.experienceLevel
      ∧ nodeIdx data r.experienceLevel < stage1Len data + stage2Len data
      ∧ stage1Len data + stage2Len data ≤ nodeIdx data r.workType
      ∧ nodeIdx data r.workType
          < stage1Len data + stage2Len data + stage3Len data := by
    intro r hr
    have hm1 : r.salaryBin ∈ salaryBinsOf data :=
      mem_firstSeen.mpr (List.mem_map.mpr ⟨r, hr, rfl⟩)
    have hm2 : r.experienceLevel ∈ experienceLevelsOf data :=
      mem_firstSeen.mpr (List.mem_map.mpr ⟨r, hr, rfl⟩)
    have hm3 : r.workType ∈ workTypesOf data :=
      mem_firstSeen.mpr (List.mem_map.mpr ⟨r, hr, rfl⟩)
    exact ⟨(nodeIdx_stage1 hm1 (h12 _ hm1) (h13 _ hm1)).2,
      (nodeIdx_stage2 hm2 (h23 _ hm2)).2.1,
      (nodeIdx_stage2 hm2 (h23 _ hm2)).2.2,
      (nodeIdx_stage3 hm3).2.1, (nodeIdx_stage3 hm3).2.2⟩
  have hn := sankeyNodes_length data
  have hbounds : ∀ r ∈ data,
      nodeIdx data r.salaryBin < (sankeyNodes data).length
      ∧ nodeIdx data r.experienceLevel < (sankeyNodes data).length
      ∧ nodeIdx data r.workType < (sankeyNodes data).length := by
    intro r hr
    have h := hplace r hr
    omega
  have hiff : ∀ r ∈ data,
      (nodeIdx data r.experienceLevel = nodeIdx data m
        ↔ r.experienceLevel = m) := by
    intro r hr
    have hm2 : r.experienceLevel ∈ experienceLevelsOf data :=
      mem_firstSeen.mpr (List.mem_map.mpr ⟨r, hr, rfl⟩)
    constructor
    · intro he
      exact lastIdx_inj (he ▸ (nodeIdx_stage2 hm2 (h23 _ hm2)).1) hmIdx.1
    · intro he
      rw [he]
  constructor
  · have h1 := linksSum_eq_cellSum (sankeyMatrix data) (sankeyNodes data).length
      (fun i j => decide (i < stage1Len data ∧ j = nodeIdx data m))
    have h2 := cellSum_fold (sankeyNodes data).length
      (fun i j => decide (i < stage1Len data ∧ j = nodeIdx data m))
      (fun r => nodeIdx data r.salaryBin)
      (fun r => nodeIdx data r.experienceLevel)
      (fun r => nodeIdx data r.workType) data (fun _ _ => 0) hbounds
    calc nodeInFlow data m
        = cellSum (sankeyMatrix data) (sankeyNodes data).length
            (fun i j => decide (i < stage1Len data ∧ j = nodeIdx data m)) :=
          h1
      _ = cellSum (fun _ _ => 0) (sankeyNodes data).length
            (fun i j => decide (i < stage1Len data ∧ j = nodeIdx data m))
          + (data.map fun r =>
              (if (decide (nodeIdx data r.salaryBin < stage1Len data
                  ∧ nodeIdx data r.experienceLevel = nodeIdx data m))
                then 1 else 0)
              + (if (decide (nodeIdx data r.experienceLevel < stage1Len data
                  ∧ nodeIdx data r.workType = nodeIdx data m))
                then 1 else 0)).sum := h2
      _ = (data.filter fun r => r.experienceLevel = m).length := by
          have hzero : cellSum (fun _ _ => 0) (sankeyNodes data).length
              (fun i j => decide (i < stage1Len data ∧ j = nodeIdx data m))
                = 0 := by
            simp [cellSum]
          rw [hzero, Nat.zero_add]
          have hcg : (data.map fun r =>
              (if (decide (nodeIdx data r.salaryBin < stage1Len data
                  ∧ nodeIdx data r.experienceLevel = nodeIdx data m))
                then (1 : ℕ) else 0)
              + (if (decide (nodeIdx data r.experienceLevel < stage1Len data
                  ∧ nodeIdx data r.workType = nodeIdx data m))
                then 1 else 0))
              = data.map fun r =>
                  if r.experienceLevel = m then (1 : ℕ) else 0 := by
            refine List.map_congr_left ?_
            intro r hr
            have h := hplace r hr
            have hneg : (decide (nodeIdx data r.experienceLevel < stage1Len data
                ∧ nodeIdx data r.workType = nodeIdx data m)) = false := by
              simp only [decide_eq_false_iff_not]
              intro hc
              omega
            by_cases hrm : r.experienceLevel = m
            · have hpos : (decide (nodeIdx data r.salaryBin < stage1Len data
                  ∧ nodeIdx data r.experienceLevel = nodeIdx data m))
                    = true := by
                simp only [decide_eq_true_eq]
                exact ⟨h.1, (hiff r hr).mpr hrm⟩
              simp only [hpos, hneg]
              simp [hrm]
            · have hpos : (decide (nodeIdx data r.salaryBin < stage1Len data
                  ∧ nodeIdx data r.experienceLevel = nodeIdx data m))
                    = false := by
                simp only [decide_eq_false_iff_not]
                intro hc
                exact hrm ((hiff r hr).mp hc.2)
              simp only [hpos, hneg]
              simp [hrm]
          rw [hcg, sum_map_indicator]
  · have h1 := linksSum_eq_cellSum (sankeyMatrix data) (sankeyNodes data).length
      (fun i j => decide (i = nodeIdx data m
        ∧ stage1Len data + stage2Len data ≤ j))
    have h2 := cellSum_fold (sankeyNodes data).length
      (fun i j => decide (i = nodeIdx data m
        ∧ stage1Len data + stage2Len data ≤ j))
      (fun r => nodeIdx data r.salaryBin)
      (fun r => nodeIdx data r.experienceLevel)
      (fun r => nodeIdx data r.workType) data (fun _ _ => 0) hbounds
    calc nodeOutFlow data m
        = cellSum (sankeyMatrix data) (sankeyNodes data).length
            (fun i j => decide (i = nodeIdx data m
              ∧ stage1Len data + stage2Len data ≤ j)) := h1
      _ = cellSum (fun _ _ => 0) (sankeyNodes data).length
            (fun i j => decide (i = nodeIdx data m
              ∧ stage1Len data + stage2Len data ≤ j))
          + (data.map fun r =>
              (if (decide (nodeIdx data r.salaryBin = nodeIdx data m
                  ∧ stage1Len data + stage2Len data
                      ≤ nodeIdx data r.experienceLevel)) then 1 else 0)
              + (if (decide (nodeIdx data r.experienceLevel = nodeIdx data m
                  ∧ stage1Len data + stage2Len data
                      ≤ nodeIdx data r.workType)) then 1 else 0)).sum := h2
      _ = (data.filter fun r => r.experienceLevel = m).length := by
          have hzero : cellSum (fun _ _ => 0) (sankeyNodes data).length
              (fun i j => decide (i = nodeIdx data m
                ∧ stage1Len data + stage2Len data ≤ j)) = 0 := by
            simp [cellSum]
          rw [hzero, Nat.zero_add]
          have hcg : (data.map fun r =>
              (if (decide (nodeIdx data r.salaryBin = nodeIdx data m
                  ∧ stage1Len data + stage2Len data
                      ≤ nodeIdx data r.experienceLevel)) then (1 : ℕ) else 0)
              + (if (decide (nodeIdx data r.experienceLevel = nodeIdx data m
                  ∧ stage1Len data + stage2Len data
                      ≤ nodeIdx data r.workType)) then 1 else 0))
              = data.map fun r =>
                  if r.experienceLevel = m then (1 : ℕ) else 0 := by
            refine List.map_congr_left ?_
            intro r hr
            have h := hplace r hr
            have hneg : (decide (nodeIdx data r.salaryBin = nodeIdx data m
                ∧ stage1Len data + stage2Len data
                    ≤ nodeIdx data r.experienceLevel)) = false := by
              simp only [decide_eq_false_iff_not]
              intro hc
              have hge := hmIdx.2.1
              omega
            by_cases hrm : r.experienceLevel = m
            · have hpos : (decide (nodeIdx data r.experienceLevel
                  = nodeIdx data m
                  ∧ stage1Len data + stage2Len data
                      ≤ nodeIdx data r.workType)) = true := by
                simp only [decide_eq_true_eq]
                exact ⟨(hiff r hr).mpr hrm, h.2.2.2.1⟩
              simp only [hpos, hneg]
              simp [hrm]
            · have hpos : (decide (nodeIdx data r.experienceLevel
                  = nodeIdx data m
                  ∧ stage1Len data + stage2Len data
                      ≤ nodeIdx data r.workType)) = false := by
                simp only [decide_eq_false_iff_not]
                intro hc
                exact hrm ((hiff r hr).mp hc.1)
              simp only [hpos, hneg]
              simp [hrm]
          rw [hcg, sum_map_indicator]

/-- Witness for C10: `"MI"` appears in two of three records; its inflow and
outflow both equal 2. -/
theorem flow_middle_balance_witness :
    nodeInFlow [⟨"50k", "MI", "remote"⟩, ⟨"100k", "MI", "hybrid"⟩,
        ⟨"50k", "SE", "remote"⟩] "MI"
      = (([⟨"50k", "MI", "remote"⟩, ⟨"100k", "MI", "hybrid"⟩,
          ⟨"50k", "SE", "remote"⟩] : List FlowRec).filter
            fun r => r.experienceLevel = "MI").length
    ∧ nodeOutFlow [⟨"50k", "MI", "remote"⟩, ⟨"100k", "MI", "hybrid"⟩,
        ⟨"50k", "SE", "remote"⟩] "MI"
      = (([⟨"50k", "MI", "remote"⟩, ⟨"100k", "MI", "hybrid"⟩,
          ⟨"50k", "SE", "remote"⟩] : List FlowRec).filter
            fun r => r.experienceLevel = "MI").length :=
  flow_middle_balance
    [⟨"50k", "MI", "remote"⟩, ⟨"100k", "MI", "hybrid"⟩,
      ⟨"50k", "SE", "remote"⟩] "MI"
    (by decide) (by decide) (by decide) (by decide)

/-! ### Histogram: `displayHistogram`

The code bins with `d3.histogram().domain([0, maxBinValue])
.thresholds(x.ticks(30))`; the embedding below follows the d3-array
implementations of `ticks`, `tickIncrement` and `bin`. -/

/-- `Math.round`: round half toward positive infinity. -/
def jsRound (q : ℚ) : ℤ := ⌊q + 1 / 2⌋

/-- `Math.floor(Math.log10(q))` for `q > 0`, fuel-structural so that it
evaluates (each step multiplies or divides by 10 until `q ∈ [1, 10)`). -/
def floorLog10Fuel : ℕ → ℚ → ℤ
  | 0, _ => 0
  | fuel + 1, q =>
    if q < 1 then floorLog10Fuel fuel (q * 10) - 1
    else if q < 10 then 0
    else floorLog10Fuel fuel (q / 10) + 1

/-- `Math.floor(Math.log10(q))`; 400 steps of fuel cover every finite
double (whose base-10 exponent lies within ±324). -/
def floorLog10 (q : ℚ) : ℤ := floorLog10Fuel 400 q

theorem floorLog10Fuel_succ (fuel : ℕ) (q : ℚ) :
    floorLog10Fuel (fuel + 1) q
      = if q < 1 then floorLog10Fuel fuel (q * 10) - 1
        else if q < 10 then 0
        else floorLog10Fuel fuel (q / 10) + 1 := rfl

/-- `d3.tickIncrement(start, stop, count)`: the nice step size; a negative
result `-d` encodes the fractional step `1/d`.  The thresholds `e10, e5, e2`
are `√50, √10, √2`; since the error ratio is positive, `error ≥ √c` is
compared as `error² ≥ c`. -/
def tickIncrement (start stop : ℚ) (count : ℕ) : ℚ :=
  let step := (stop - start) / count
  if 0 < step then
    let power : ℤ := floorLog10 step
    let error := step / (10 : ℚ) ^ power
    let factor : ℚ :=
      if 50 ≤ error ^ 2 then 10 else if 10 ≤ error ^ 2 then 5
      else if 2 ≤ error ^ 2 then 2 else 1
    if 0 ≤ power then factor * (10 : ℚ) ^ power
    else -((10 : ℚ) ^ (-power)) / factor
  else 0

/-- `d3.ticks(start, stop, count)`: nice round values covering
`[start, stop]` (over `ℚ` every value is finite, so the `!isFinite` exit
collapses to the `step = 0` test; a negative tick count range yields the
empty array). -/
def d3ticks (start stop : ℚ) (count : ℕ) : List ℚ :=
  if start = stop ∧ 0 < count then [start]
  else
    let lo := if stop < start then stop else start
    let hi := if stop < start then start else stop
    let inc := tickIncrement lo hi count
    let ticks : List ℚ :=
      if 0 < inc then
        let r0 := jsRound (lo / inc)
          + (if (jsRound (lo / inc) : ℚ) * inc < lo then 1 else 0)
        let r1 := jsRound (hi / inc)
          - (if hi < (jsRound (hi / inc) : ℚ) * inc then 1 else 0)
        (List.range (r1 - r0 + 1).toNat).map
          fun i : ℕ => ((r0 + (i : ℤ) : ℤ) : ℚ) * inc
      else if inc < 0 then
        let d := -inc
        let r0 := jsRound (lo * d)
          + (if (jsRound (lo * d) : ℚ) / d < lo then 1 else 0)
        let r1 := jsRound (hi * d)
          - (if hi < (jsRound (hi * d) : ℚ) / d then 1 else 0)
        (List.range (r1 - r0 + 1).toNat).map
          fun i : ℕ => ((r0 + (i : ℤ) : ℤ) : ℚ) / d
      else []
    if stop < start then ticks.reverse else ticks

/-- One d3 histogram bin: bounds and member values. -/
structure HBin where
  x0 : ℚ
  x1 : ℚ
  members : List ℚ
deriving DecidableEq

/-- `bin.length` in the rendering code: the bin's count. -/
def HBin.count (b : HBin) : ℕ := b.members.length

/-- `bisect(tz, x, 0, m)` (bisectRight) over the ascending trimmed
thresholds: the number of thresholds not exceeding `x`. -/
def binIndex (tz : List ℚ) (x : ℚ) : ℕ :=
  tz.countP fun t => decide (t ≤ x)

/-- The `while (tz[m - 1] >= x1) tz.pop()` loop: drop the longest suffix of
elements satisfying `p`. -/
def dropTrailing (p : ℚ → Bool) (l : List ℚ) : List ℚ :=
  (l.reverse.dropWhile p).reverse

/-- d3-array 1.x `histogram` (the dashboard file runs under d3 v5: it calls
`d3.nest()`, which d3 v6 removed, and the promise-returning `d3.csv`)
applied with domain `[x0, x1]` and an explicit thresholds array:
`while (tz[0] <= x0) tz.shift()` and `while (tz[m-1] >= x1) tz.pop()`
remove thresholds at or below `x0` and at or **above** `x1`; bin `i` spans
`tz[i-1] .. tz[i]` with outer bounds `x0` and `x1`; the assignment loop
pushes each value `x0 ≤ v ≤ x1` (in data order) into bin `bisect(tz, v)` and
ignores values outside the domain, so a bin's final contents are the
in-domain values with its bisect index. -/
def d3histogram (x0 x1 : ℚ) (tz0 : List ℚ) (data : List ℚ) : List HBin :=
  let tz := dropTrailing (fun t => decide (x1 ≤ t))
    (tz0.dropWhile fun t => decide (t ≤ x0))
  let m := tz.length
  (List.range (m + 1)).map fun i =>
    ⟨if i = 0 then x0 else tz.getD (i - 1) 0,
     if i < m then tz.getD i 0 else x1,
     (data.filter fun v => decide (x0 ≤ v) && decide (v ≤ x1)).filter
       fun v => decide (binIndex tz v = i)⟩

/-- `HISTOGRAM_NUM_BINS` from the dashboard code. -/
def HISTOGRAM_NUM_BINS : ℕ := 30

/-- `Math.max(...data)` (the empty case yields `-Infinity`, which `ℚ` cannot
represent; the theorems below assume a non-empty sample). -/
def maxValueOf (data : List ℚ) : ℚ := data.max?.getD 0

/-- `Math.ceil(maxValue / HISTOGRAM_NUM_BINS) * (HISTOGRAM_NUM_BINS + 1)`. -/
def maxBinValue (data : List ℚ) : ℚ :=
  ((⌈maxValueOf data / (HISTOGRAM_NUM_BINS : ℚ)⌉
    * ((HISTOGRAM_NUM_BINS : ℤ) + 1) : ℤ) : ℚ)

/-- The full `displayHistogram` binning pipeline. -/
def histogramBins (data : List ℚ) : List HBin :=
  d3histogram 0 (maxBinValue data)
    (d3ticks 0 (maxBinValue data) HISTOGRAM_NUM_BINS) data

/-- Core total-mass property of the d3 binning: members are exactly the
in-domain values, partitioned among the bins by their bisect index. -/
theorem d3histogram_total (x0 x1 : ℚ) (tz0 : List ℚ) (data : List ℚ) :
    (∀ b ∈ d3histogram x0 x1 tz0 data, ∀ x ∈ b.members, x0 ≤ x ∧ x ≤ x1)
    ∧ ((d3histogram x0 x1 tz0 data).map HBin.count).sum
        = (data.filter fun v => decide (x0 ≤ v) && decide (v ≤ x1)).length := by
  constructor
  · intro b hb x hx
    simp only [d3histogram] at hb
    rcases List.mem_map.mp hb with ⟨i, _, rfl⟩
    have hx1 := (List.mem_filter.mp hx).1
    have hdom := (List.mem_filter.mp hx1).2
    simp only [Bool.and_eq_true, decide_eq_true_eq] at hdom
    exact hdom
  · simp only [d3histogram]
    generalize (dropTrailing (fun t => decide (x1 ≤ t))
      (tz0.dropWhile fun t => decide (t ≤ x0))) = tz
    rw [List.map_map]
    rw [List.map_congr_left (fun i _ => rfl :
      ∀ i ∈ List.range (tz.length + 1),
        (HBin.count ∘ fun i =>
          (⟨if i = 0 then x0 else tz.getD (i - 1) 0,
            if i < tz.length then tz.getD i 0 else x1,
            (data.filter fun v => decide (x0 ≤ v) && decide (v ≤ x1)).filter
              fun v => decide (binIndex tz v = i)⟩ : HBin)) i
          = ((data.filter fun v =>
              decide (x0 ≤ v) && decide (v ≤ x1)).filter
                fun v => decide (binIndex tz v = i)).length)]
    exact sum_fiber_lengths (binIndex tz) (List.range (tz.length + 1)) _
      (List.nodup_range _)
      (fun v _ => List.mem_range.mpr
        (Nat.lt_succ_of_le (List.countP_le_length _)))

/-- C8: values are dropped (not clamped) outside `[0, maxBinValue]` — every
bin member is in-domain — and when every sample value is in-domain the bin
counts sum to the sample size. -/
theorem histogram_total_mass (data : List ℚ) (hne : data ≠ []) :
    (∀ b ∈ histogramBins data, ∀ x ∈ b.members,
        0 ≤ x ∧ x ≤ maxBinValue data)
    ∧ ((∀ v ∈ data, 0 ≤ v ∧ v ≤ maxBinValue data) →
        ((histogramBins data).map HBin.count).sum = data.length) := by
  have h := d3histogram_total 0 (maxBinValue data)
    (d3ticks 0 (maxBinValue data) HISTOGRAM_NUM_BINS) data
  refine ⟨h.1, fun hcov => ?_⟩
  have hfil : (data.filter fun v =>
      decide ((0 : ℚ) ≤ v) && decide (v ≤ maxBinValue data)) = data :=
    List.filter_eq_self.mpr fun v hv => by
      rcases hcov v hv with ⟨h1, h2⟩
      simp [h1, h2]
  calc ((histogramBins data).map HBin.count).sum
      = (data.filter fun v =>
          decide ((0 : ℚ) ≤ v) && decide (v ≤ maxBinValue data)).length := h.2
    _ = data.length := by rw [hfil]

theorem maxBinValue_single0 : maxBinValue [0] = 0 := by
  unfold maxBinValue HISTOGRAM_NUM_BINS
  rw [show maxValueOf ([0] : List ℚ) = 0 from rfl]
  norm_num

theorem d3ticks_0_0_30 : d3ticks 0 0 30 = [0] := by
  unfold d3ticks
  rw [if_pos ⟨rfl, by norm_num⟩]

theorem histogramBins_single0 :
    histogramBins [0] = d3histogram 0 0 [0] [0] := by
  unfold histogramBins HISTOGRAM_NUM_BINS
  rw [maxBinValue_single0, d3ticks_0_0_30]

/-- Witness for C8 at the one-value in-domain sample `[0]`: the single bin
holds the value, which is in-domain, and the counts sum to 1. -/
theorem histogram_total_mass_witness :
    ((0 : ℚ) ≤ 0 ∧ (0 : ℚ) ≤ maxBinValue [0])
    ∧ ((histogramBins [0]).map HBin.count).sum = ([0] : List ℚ).length :=
  ⟨(histogram_total_mass [0] (by decide)).1 ⟨0, 0, [0]⟩
      (by rw [histogramBins_single0]; decide) 0 (by decide),
   (histogram_total_mass [0] (by decide)).2
      (by rw [maxBinValue_single0]; decide)⟩

theorem range_map_getD (l : List ℚ) :
    (List.range l.length).map (fun i => l.getD i 0) = l := by
  induction l with
  | nil => rfl
  | cons a l ih =>
    rw [show (a :: l).length = l.length + 1 from rfl, List.range_succ_eq_map,
      List.map_cons, List.map_map]
    exact congrArg (List.cons ((a :: l).getD 0 0))
      ((List.map_congr_left fun i _ => rfl).trans ih)

/-- The lower bounds of the d3 bins are the domain minimum followed by the
trimmed thresholds. -/
theorem d3histogram_map_x0 (x0 x1 : ℚ) (tz0 data : List ℚ) :
    (d3histogram x0 x1 tz0 data).map HBin.x0
      = x0 :: dropTrailing (fun t => decide (x1 ≤ t))
          (tz0.dropWhile fun t => decide (t ≤ x0)) := by
  simp only [d3histogram]
  generalize (dropTrailing (fun t => decide (x1 ≤ t))
    (tz0.dropWhile fun t => decide (t ≤ x0))) = tz
  rw [List.map_map, List.range_succ_eq_map, List.map_cons, List.map_map]
  congr 1
  exact (List.map_congr_left fun i _ => rfl).trans (range_map_getD tz)

/-- Adjacent d3 bins share their boundary threshold. -/
theorem d3histogram_contiguous (x0 x1 : ℚ) (tz0 data : List ℚ) :
    ∀ i, i + 1 < (d3histogram x0 x1 tz0 data).length →
      ((d3histogram x0 x1 tz0 data).getD i ⟨0, 0, []⟩).x1
        = ((d3histogram x0 x1 tz0 data).getD (i + 1) ⟨0, 0, []⟩).x0 := by
  simp only [d3histogram]
  generalize (dropTrailing (fun t => decide (x1 ≤ t))
    (tz0.dropWhile fun t => decide (t ≤ x0))) = tz
  intro i hi
  rw [List.length_map, List.length_range] at hi
  have hi' : i < tz.length := by omega
  rw [List.getD_eq_getElem?_getD, List.getD_eq_getElem?_getD,
    List.getElem?_map, List.getElem?_map,
    List.getElem?_range (by omega : i < tz.length + 1),
    List.getElem?_range (by omega : i + 1 < tz.length + 1)]
  simp only [Option.map_some', Option.getD_some]
  rw [if_pos hi', if_neg (Nat.succ_ne_zero i)]
  rfl

theorem dropWhile_gt_of_sorted {x0 : ℚ} :
    ∀ {l : List ℚ}, l.Pairwise (· < ·) →
      ∀ t ∈ l.dropWhile (fun t => decide (t ≤ x0)), x0 < t := by
  intro l
  induction l with
  | nil =>
    intro _ t ht
    simp [List.dropWhile] at ht
  | cons a l ih =>
    intro hp t ht
    rw [List.dropWhile_cons] at ht
    by_cases ha : a ≤ x0
    · rw [if_pos (decide_eq_true ha)] at ht
      exact ih (List.pairwise_cons.mp hp).2 t ht
    · rw [if_neg (fun hc => ha (of_decide_eq_true hc))] at ht
      rcases List.mem_cons.mp ht with rfl | ht'
      · exact lt_of_not_le ha
      · exact lt_trans (lt_of_not_le ha) ((List.pairwise_cons.mp hp).1 t ht')

theorem dropTrailing_sublist (p : ℚ → Bool) (l : List ℚ) :
    (dropTrailing p l).Sublist l := by
  unfold dropTrailing
  have h : (l.reverse.dropWhile p).Sublist l.reverse := List.dropWhile_sublist _
  have h2 := h.reverse
  rwa [List.reverse_reverse] at h2

/-- The ticks produced for a `[0, M]` domain with `M ≥ 0` are strictly
increasing. -/
theorem d3ticks_sorted_of_nonneg (M : ℚ) (hM : 0 ≤ M) (count : ℕ) :
    (d3ticks 0 M count).Pairwise (· < ·) := by
  unfold d3ticks
  by_cases h0 : (0 : ℚ) = M ∧ 0 < count
  · rw [if_pos h0]
    exact List.pairwise_singleton _ _
  · rw [if_neg h0]
    have hrev : ¬(M < (0 : ℚ)) := not_lt.mpr hM
    simp only [if_neg hrev]
    by_cases hpos : 0 < tickIncrement 0 M count
    · rw [if_pos hpos, List.pairwise_map]
      refine (List.pairwise_lt_range _).imp ?_
      intro a b hab
      refine mul_lt_mul_of_pos_right ?_ hpos
      exact_mod_cast Int.add_lt_add_left (Int.ofNat_lt.mpr hab) _
    · rw [if_neg hpos]
      by_cases hneg' : tickIncrement 0 M count < 0
      · rw [if_pos hneg', List.pairwise_map]
        refine (List.pairwise_lt_range _).imp ?_
        intro a b hab
        have hd : (0 : ℚ) < -tickIncrement 0 M count := by linarith
        refine (div_lt_div_right hd).mpr ?_
        exact_mod_cast Int.add_lt_add_left (Int.ofNat_lt.mpr hab) _
      · rw [if_neg hneg']
        exact List.Pairwise.nil

/-- C9 amended: bins are contiguous (each upper bound is the next bin's
lower bound) and listed in strictly ascending order of lower bound; their
widths are the d3 tick gaps (the counterexample shows they need not equal
`(domainMax - domainMin) / numBins`, and the last bin — from the last kept
threshold to the domain max — may be narrower than the others). -/
theorem histogram_bins_ordering (data : List ℚ) (hmax : 0 ≤ maxValueOf data) :
    (∀ i, i + 1 < (histogramBins data).length →
        ((histogramBins data).getD i ⟨0, 0, []⟩).x1
          = ((histogramBins data).getD (i + 1) ⟨0, 0, []⟩).x0)
    ∧ ((histogramBins data).map HBin.x0).Pairwise (· < ·) := by
  have hM : (0 : ℚ) ≤ maxBinValue data := by
    unfold maxBinValue
    have h1 : (0 : ℚ) ≤ maxValueOf data / (HISTOGRAM_NUM_BINS : ℚ) :=
      div_nonneg hmax (by norm_num [HISTOGRAM_NUM_BINS])
    have h2 : (0 : ℤ)
        ≤ ⌈maxValueOf data / (HISTOGRAM_NUM_BINS : ℚ)⌉
            * ((HISTOGRAM_NUM_BINS : ℤ) + 1) :=
      mul_nonneg (Int.ceil_nonneg h1) (by positivity)
    exact_mod_cast h2
  constructor
  · exact d3histogram_contiguous 0 (maxBinValue data) _ data
  · rw [show histogramBins data
        = d3histogram 0 (maxBinValue data)
            (d3ticks 0 (maxBinValue data) HISTOGRAM_NUM_BINS) data from rfl,
      d3histogram_map_x0]
    have hticks := d3ticks_sorted_of_nonneg (maxBinValue data) hM
      HISTOGRAM_NUM_BINS
    have hdw : ((d3ticks 0 (maxBinValue data)
        HISTOGRAM_NUM_BINS).dropWhile
          (fun t => decide (t ≤ (0 : ℚ)))).Pairwise (· < ·) :=
      List.Pairwise.sublist (List.dropWhile_sublist _) hticks
    have hsub := dropTrailing_sublist
      (fun t => decide (maxBinValue data ≤ t))
      ((d3ticks 0 (maxBinValue data) HISTOGRAM_NUM_BINS).dropWhile
        (fun t => decide (t ≤ (0 : ℚ))))
    refine List.pairwise_cons.mpr ⟨?_, List.Pairwise.sublist hsub hdw⟩
    intro t ht
    exact dropWhile_gt_of_sorted hticks t (hsub.subset ht)


/-! #### Concrete evaluation of the `[35]` histogram -/

theorem maxValueOf_single35 : maxValueOf ([35] : List ℚ) = 35 := rfl

theorem ceil_35_30 : (⌈(35 : ℚ) / ((30 : ℕ) : ℚ)⌉ : ℤ) = 2 := by
  rw [Int.ceil_eq_iff]
  norm_num

theorem maxBinValue_single35 : maxBinValue [35] = 62 := by
  unfold maxBinValue HISTOGRAM_NUM_BINS
  rw [maxValueOf_single35, ceil_35_30]
  norm_num

theorem floorLog10_62_30 : floorLog10 ((62 - 0 : ℚ) / ((30 : ℕ) : ℚ)) = 0 := by
  unfold floorLog10
  rw [show (400 : ℕ) = 399 + 1 from rfl, floorLog10Fuel_succ]
  norm_num

theorem tickIncrement_0_62_30 : tickIncrement 0 62 30 = 2 := by
  simp only [tickIncrement]
  rw [floorLog10_62_30]
  norm_num

theorem d3ticks_0_62_30 :
    d3ticks 0 62 30 = ([0, 2, 4, 6, 8, 10, 12, 14, 16, 18, 20, 22, 24, 26, 28, 30, 32, 34, 36, 38, 40, 42, 44, 46, 48, 50, 52, 54, 56, 58, 60, 62] : List ℚ) := by
  have hr : List.range 32 = [0, 1, 2, 3, 4, 5, 6, 7, 8, 9, 10, 11, 12, 13, 14, 15, 16, 17, 18, 19, 20, 21, 22, 23, 24, 25, 26, 27, 28, 29, 30, 31] := rfl
  simp only [d3ticks]
  simp only [if_neg (show ¬((0 : ℚ) = 62 ∧ 0 < 30) from by norm_num),
    if_neg (show ¬((62 : ℚ) < (0 : ℚ)) from by norm_num)]
  rw [tickIncrement_0_62_30]
  norm_num [jsRound]
  rw [show Int.toNat 32 = 32 from rfl, hr]
  norm_num

theorem histogramBins_single35 :
    histogramBins [35] = d3histogram 0 62 ([0, 2, 4, 6, 8, 10, 12, 14, 16, 18, 20, 22, 24, 26, 28, 30, 32, 34, 36, 38, 40, 42, 44, 46, 48, 50, 52, 54, 56, 58, 60, 62] : List ℚ) [35] := by
  unfold histogramBins HISTOGRAM_NUM_BINS
  rw [maxBinValue_single35, d3ticks_0_62_30]

/-! #### Concrete evaluation of the `[61]` histogram -/

theorem maxValueOf_single61 : maxValueOf ([61] : List ℚ) = 61 := rfl

theorem ceil_61_30 : (⌈(61 : ℚ) / ((30 : ℕ) : ℚ)⌉ : ℤ) = 3 := by
  rw [Int.ceil_eq_iff]
  norm_num

theorem maxBinValue_single61 : maxBinValue [61] = 93 := by
  unfold maxBinValue HISTOGRAM_NUM_BINS
  rw [maxValueOf_single61, ceil_61_30]
  norm_num

theorem floorLog10_93_30 : floorLog10 ((93 - 0 : ℚ) / ((30 : ℕ) : ℚ)) = 0 := by
  unfold floorLog10
  rw [show (400 : ℕ) = 399 + 1 from rfl, floorLog10Fuel_succ]
  norm_num

theorem tickIncrement_0_93_30 : tickIncrement 0 93 30 = 2 := by
  simp only [tickIncrement]
  rw [floorLog10_93_30]
  norm_num

theorem d3ticks_0_93_30 :
    d3ticks 0 93 30 = ([0, 2, 4, 6, 8, 10, 12, 14, 16, 18, 20, 22, 24, 26, 28, 30, 32, 34, 36, 38, 40, 42, 44, 46, 48, 50, 52, 54, 56, 58, 60, 62, 64, 66, 68, 70, 72, 74, 76, 78, 80, 82, 84, 86, 88, 90, 92] : List ℚ) := by
  have hr : List.range 47 = [0, 1, 2, 3, 4, 5, 6, 7, 8, 9, 10, 11, 12, 13, 14, 15, 16, 17, 18, 19, 20, 21, 22, 23, 24, 25, 26, 27, 28, 29, 30, 31, 32, 33, 34, 35, 36, 37, 38, 39, 40, 41, 42, 43, 44, 45, 46] := rfl
  simp only [d3ticks]
  simp only [if_neg (show ¬((0 : ℚ) = 93 ∧ 0 < 30) from by norm_num),
    if_neg (show ¬((93 : ℚ) < (0 : ℚ)) from by norm_num)]
  rw [tickIncrement_0_93_30]
  norm_num [jsRound]
  rw [show Int.toNat 47 = 47 from rfl, hr]
  norm_num

theorem histogramBins_single61 :
    histogramBins [61] = d3histogram 0 93 ([0, 2, 4, 6, 8, 10, 12, 14, 16, 18, 20, 22, 24, 26, 28, 30, 32, 34, 36, 38, 40, 42, 44, 46, 48, 50, 52, 54, 56, 58, 60, 62, 64, 66, 68, 70, 72, 74, 76, 78, 80, 82, 84, 86, 88, 90, 92] : List ℚ) [61] := by
  unfold histogramBins HISTOGRAM_NUM_BINS
  rw [maxBinValue_single61, d3ticks_0_93_30]

/-- C9 counterexample: for the sample `[61]` the derived domain is
`[0, 93]` and the d3 ticks step by 2 up to 92; the d3 v5 trimming drops no
trailing threshold (92 < 93), so the first bin is `[0, 2)` — width 2, not
`(93 - 0) / 30` — while the last bin `[92, 93]` has width 1: the bins do
not all share one width. -/
theorem histogram_equal_width_cex :
    (¬ ∀ b ∈ histogramBins [61],
        b.x1 - b.x0 = (maxBinValue [61] - 0) / (HISTOGRAM_NUM_BINS : ℚ))
    ∧ ∃ b1 ∈ histogramBins [61], ∃ b2 ∈ histogramBins [61],
        b1.x1 - b1.x0 ≠ b2.x1 - b2.x0 := by
  have hmem0 : (⟨0, 2, []⟩ : HBin) ∈ histogramBins [61] := by
    rw [histogramBins_single61]
    decide
  have hmemL : (⟨92, 93, []⟩ : HBin) ∈ histogramBins [61] := by
    rw [histogramBins_single61]
    decide
  constructor
  · intro hall
    have hw := hall _ hmem0
    rw [maxBinValue_single61] at hw
    norm_num [HISTOGRAM_NUM_BINS] at hw
  · exact ⟨_, hmem0, _, hmemL, by norm_num⟩

/-- Witness for the amended C9 at the sample `[35]`: the first two of the
31 bins share the boundary 2, and the lower bounds ascend. -/
theorem histogram_bins_ordering_witness :
    ((histogramBins [35]).getD 0 ⟨0, 0, []⟩).x1
      = ((histogramBins [35]).getD (0 + 1) ⟨0, 0, []⟩).x0
    ∧ ((histogramBins [35]).map HBin.x0).Pairwise (· < ·) :=
  ⟨(histogram_bins_ordering [35] (by decide)).1 0
      (by rw [histogramBins_single35]; decide),
   (histogram_bins_ordering [35] (by decide)).2⟩
